import Mathlib

/-!
Verification of the plan/task execution and dependency-ordering engine of
the service-management agent.  The definitions below are a shallow
embedding of the engine: `sortTasksByPriorityAndDependencies`, the task,
plan and mission executors, the completion validator and the plan revision
operations, translated from the source with external collaborators
(tools, reasoning service, clock) abstracted as oracles.
-/

namespace Agent

/-- Task execution status (schema enum `tasks.status`). -/
inductive TaskStatus
  | pending | in_progress | completed | failed | skipped
deriving DecidableEq

/-- Plan status (schema enum `plans.status`). -/
inductive PlanStatus
  | draft | active | completed | failed | superseded
deriving DecidableEq

/-- Mission status (schema enum `missions.status`). -/
inductive MissionStatus
  | pending | planning | executing | completed | failed
deriving DecidableEq

/-- A task as consumed by the execution engine: identity, title, integer
priority (lower is more urgent), and the ids of the tasks it depends on
(the fields of `Task` in `types.ts` that the engine reads). -/
structure Task where
  id : String
  title : String
  priority : Int
  dependencies : List String
deriving DecidableEq

/-- The ids of a task list. -/
def taskIds (tasks : List Task) : List String := tasks.map (·.id)

/-- The error message thrown by `visit` on a circular dependency. -/
def cycleMsg (title : String) : String :=
  "Circular dependency detected involving task: " ++ title

/-- The mutable state of the depth-first traversal inside
`sortTasksByPriorityAndDependencies`: the `visiting` stack, the `visited`
set and the accumulated `sorted` output array. -/
structure SortSt where
  visiting : List String
  visited : List String
  sorted : List Task
deriving DecidableEq

/-- The loop over a task's dependency ids inside `visit`: look each id up
in the task set (absent ids are skipped) and visit the found task with the
continuation `f` (the recursive `visit` at the next fuel level). -/
def visitDepsAux (f : SortSt → Task → Except String SortSt) (tasks : List Task) :
    SortSt → List String → Except String SortSt
  | st, [] => .ok st
  | st, d :: ds =>
    match tasks.find? (fun u => u.id == d) with
    | none => visitDepsAux f tasks st ds
    | some u =>
      match f st u with
      | .error e => .error e
      | .ok st2 => visitDepsAux f tasks st2 ds

/-- The recursive `visit` closure of `sortTasksByPriorityAndDependencies`:
error out if the task is on the `visiting` stack, return if already
`visited`, otherwise push, visit the dependencies, pop and emit.  `fuel`
bounds the recursion depth; the top level supplies `tasks.length + 1`,
which is proved sufficient below. -/
def visit (tasks : List Task) : Nat → SortSt → Task → Except String SortSt
  | 0, _, _ => .error "out of fuel"
  | fuel + 1, st, t =>
    if st.visiting.contains t.id then
      .error (cycleMsg t.title)
    else if st.visited.contains t.id then
      .ok st
    else
      match visitDepsAux (visit tasks fuel) tasks
          { st with visiting := t.id :: st.visiting } t.dependencies with
      | .error e => .error e
      | .ok st2 =>
          .ok { visiting := st2.visiting.erase t.id
                visited := t.id :: st2.visited
                sorted := st2.sorted ++ [t] }

/-- The ordering used by the JS comparator `a.priority - b.priority`. -/
def priLE (a b : Task) : Prop := a.priority ≤ b.priority

instance : DecidableRel priLE :=
  fun a b => inferInstanceAs (Decidable (a.priority ≤ b.priority))

instance : IsTotal Task priLE := ⟨fun a b => Int.le_total a.priority b.priority⟩

instance : IsTrans Task priLE := ⟨fun _ _ _ h h' => le_trans h h'⟩

/-- The JS `[...tasks].sort((a, b) => a.priority - b.priority)`: a stable
sort by ascending numeric priority, realised as stable insertion sort. -/
def sortByPriority (tasks : List Task) : List Task :=
  List.insertionSort priLE tasks

/-- The seed loop of `sortTasksByPriorityAndDependencies`: visit the tasks
in ascending priority order. -/
def visitAll (tasks : List Task) (fuel : Nat) : SortSt → List Task → Except String SortSt
  | st, [] => .ok st
  | st, t :: ts =>
    match visit tasks fuel st t with
    | .error e => .error e
    | .ok st2 => visitAll tasks fuel st2 ts

/-- The sorter `sortTasksByPriorityAndDependencies` from the `AutonomousEngine`:
topological sort of the plan's tasks, seeded in ascending priority order,
with dependency-first (post-order) emission; errors when a circular
dependency is encountered. -/
def sortTasksByPriorityAndDependencies (tasks : List Task) : Except String (List Task) :=
  match visitAll tasks (tasks.length + 1) ⟨[], [], []⟩ (sortByPriority tasks) with
  | .error e => .error e
  | .ok st => .ok st.sorted

/-- One dependency edge of the task set: some task with id `a` lists `b`
among its dependency ids. -/
def depStep (tasks : List Task) (a b : String) : Prop :=
  ∃ t, t ∈ tasks ∧ t.id = a ∧ b ∈ t.dependencies

/-- The id `a` lies on a dependency cycle of the task set. -/
def inCycle (tasks : List Task) (a : String) : Prop :=
  Relation.TransGen (depStep tasks) a a

/-- Result of a tool's `execute` (`ToolResult` in `types.ts`), with the
JSON `data` payload abstracted to an optional string. -/
structure ToolResult where
  success : Bool
  data : Option String
  error : Option String
deriving DecidableEq

/-- Outcome of one actual tool invocation, as an oracle: the tool either
returns a result or throws, together with the wall-clock duration
measured around the call. -/
inductive ToolInvocationOutcome
  | returns (r : ToolResult) (dur : Nat)
  | throws (msg : String) (dur : Nat)
deriving DecidableEq

/-- Behaviour of tool resolution and invocation for one task id, as an
oracle: either no tool could be resolved (`selectTool` returned null), or
a tool with the given name is invoked with the given outcome. -/
inductive TaskBehavior
  | noTool
  | invoke (toolName : String) (outcome : ToolInvocationOutcome)

/-- The task's result payload as persisted by the executor: the tool
result's `data` field on a returned result, or the `{ error: message }`
object written when the execution threw. -/
inductive TaskResultPayload
  | fromData (d : Option String)
  | errorObj (msg : String)
deriving DecidableEq

/-- One persisted row of the `tasks` table, restricted to the columns the
executor writes. -/
structure TaskRow where
  status : TaskStatus
  startedAt : Option Nat
  completedAt : Option Nat
  result : Option TaskResultPayload
deriving DecidableEq

/-- One row of the `tool_usage` table (a `ToolUsageRecord`). -/
structure ToolUsageRecord where
  taskId : String
  toolName : String
  result : Option String
  success : Bool
  duration : Nat
  errorMessage : Option String
deriving DecidableEq

/-- The persisted execution state touched by the plan executor: the task
rows (keyed by task id), the plan's status, the appended tool-usage rows
and a logical clock standing for `new Date()`. -/
structure ExecSt where
  rows : String → TaskRow
  planStatus : PlanStatus
  usage : List ToolUsageRecord
  clock : Nat

/-- Single-row update of the `tasks` table. -/
def setRow (st : ExecSt) (id : String) (f : TaskRow → TaskRow) : ExecSt :=
  { st with rows := fun i => if i = id then f (st.rows i) else st.rows i }

/-- Model of `ToolUseEngine.executeTool`: invoke the tool and append exactly one
tool-usage row, whether the call returns (successfully or not) or throws;
a thrown error is recorded with `success := false` and rethrown. -/
def executeTool (taskId toolName : String) (o : ToolInvocationOutcome) (st : ExecSt) :
    Except String ToolResult × ExecSt :=
  match o with
  | .returns r dur =>
    (.ok r, { st with usage := st.usage ++ [⟨taskId, toolName, r.data, r.success, dur, r.error⟩] })
  | .throws msg dur =>
    (.error msg, { st with usage := st.usage ++ [⟨taskId, toolName, none, false, dur, some msg⟩] })

/-- Model of `AutonomousEngine.executeTask`: mark the task `in_progress` with its
start time, resolve and invoke the tool, then mark the task `completed`
or `failed` with its completion time and result; a thrown error (no tool
resolved, or the tool threw) marks the task `failed` with the error
object persisted, and is rethrown. -/
def executeTask (behavior : String → TaskBehavior) (t : Task) (st : ExecSt) :
    Except String ToolResult × ExecSt :=
  let stA := setRow st t.id (fun r => { r with status := .in_progress, startedAt := some st.clock })
  let st0 := { stA with clock := stA.clock + 1 }
  match behavior t.id with
  | .noTool =>
    let msg := "No suitable tool found for task: " ++ t.title
    let st1 := setRow st0 t.id (fun r =>
      { r with status := .failed, completedAt := some st0.clock, result := some (.errorObj msg) })
    (.error msg, { st1 with clock := st1.clock + 1 })
  | .invoke toolName o =>
    match executeTool t.id toolName o st0 with
    | (.ok r, st1) =>
      let st2 := setRow st1 t.id (fun row =>
        { row with status := if r.success then .completed else .failed
                   completedAt := some st1.clock
                   result := some (.fromData r.data) })
      (.ok r, { st2 with clock := st2.clock + 1 })
    | (.error msg, st1) =>
      let st2 := setRow st1 t.id (fun row =>
        { row with status := .failed
                   completedAt := some st1.clock
                   result := some (.errorObj msg) })
      (.error msg, { st2 with clock := st2.clock + 1 })

/-- The `ExecutionResult` shape from `types.ts`, restricted to the fields the
claims concern. -/
structure ExecutionResult where
  success : Bool
  completedTasks : List Task
  failedTasks : List Task
  error : Option String
deriving DecidableEq

/-- The dependency re-check of `executePlan`: a dependency id is
satisfied when the plan's persisted task rows contain it with status
`completed`. -/
def depCompleted (planTasks : List Task) (st : ExecSt) (d : String) : Bool :=
  planTasks.any (fun u => u.id == d) && (st.rows d).status == TaskStatus.completed

/-- One iteration of the task loop of `executePlan`, over the
accumulator (completed tasks, failed tasks, state): a task whose
dependency ids are not all `completed` in the current persisted state is
skipped (left untouched); otherwise it is executed, a returned failure or
a thrown error adding the task to the failed set. -/
def runStep (planTasks : List Task) (behavior : String → TaskBehavior)
    (acc : List Task × List Task × ExecSt) (t : Task) : List Task × List Task × ExecSt :=
  let incomplete := t.dependencies.filter (fun d => !(depCompleted planTasks acc.2.2 d))
  if incomplete.isEmpty then
    match executeTask behavior t acc.2.2 with
    | (.ok r, st') =>
      if r.success then (acc.1 ++ [t], acc.2.1, st')
      else (acc.1, acc.2.1 ++ [t], st')
    | (.error _, st') => (acc.1, acc.2.1 ++ [t], st')
  else acc

/-- The task loop of `executePlan` over the sorted task sequence. -/
def runTasks (planTasks : List Task) (behavior : String → TaskBehavior)
    (acc : List Task × List Task × ExecSt) (l : List Task) : List Task × List Task × ExecSt :=
  l.foldl (runStep planTasks behavior) acc

/-- Model of `AutonomousEngine.executePlan`: mark the plan `active`, sort the
tasks (a cycle error is caught, fails the whole plan and runs no task),
then run the task loop and set the plan's final status from the failed
set. -/
def executePlan (planTasks : List Task) (behavior : String → TaskBehavior) (st : ExecSt) :
    ExecutionResult × ExecSt :=
  let stA := { st with planStatus := .active }
  match sortTasksByPriorityAndDependencies planTasks with
  | .error e => (⟨false, [], [], some e⟩, { stA with planStatus := .failed })
  | .ok sorted =>
    let out := runTasks planTasks behavior ([], [], stA) sorted
    let finalStatus := if out.2.1.isEmpty then PlanStatus.completed else PlanStatus.failed
    (⟨out.2.1.isEmpty, out.1, out.2.1, none⟩, { out.2.2 with planStatus := finalStatus })

/-- The parsed response of the goal-completion judge
(`assessCompletion`). -/
structure Assessment where
  completed : Bool
  completionPercentage : ℚ
deriving DecidableEq

/-- Model of `GoalOrientedEngine.validateCompletion`: true exactly when the
judge's response has `completed` true and `completionPercentage ≥ 0.9`;
any error (judge call or parse) is caught and yields `false`. -/
def validateCompletion (assessment : Except String Assessment) : Bool :=
  match assessment with
  | .error _ => false
  | .ok a => a.completed && decide ((9 : ℚ) / 10 ≤ a.completionPercentage)

/-- The mission-level persisted state. -/
structure MissionSt where
  missionStatus : MissionStatus
  missionCompletedAt : Option Nat
  exec : ExecSt

/-- Model of `ServiceManagementAgentImpl.executeMission`: set the mission
`planning`, obtain a plan (the planning collaborator may throw), set the
mission `executing`, run the plan, ask the completion judge, and set the
final status (`completed` with a completion timestamp, else `failed`);
any thrown error is caught, the mission is forced to `failed` and an
empty failure result is returned. -/
def executeMission (planning : Except String (List Task))
    (behavior : String → TaskBehavior) (assessment : Except String Assessment)
    (st : MissionSt) : ExecutionResult × MissionSt :=
  let stP := { st with missionStatus := MissionStatus.planning }
  match planning with
  | .error e =>
    (⟨false, [], [], some e⟩, { stP with missionStatus := MissionStatus.failed })
  | .ok planTasks =>
    let stE := { stP with missionStatus := MissionStatus.executing }
    let out := executePlan planTasks behavior stE.exec
    let isCompleted := validateCompletion assessment
    ({ out.1 with success := isCompleted },
     { missionStatus := if isCompleted then MissionStatus.completed else MissionStatus.failed
       missionCompletedAt := if isCompleted then some out.2.clock else stE.missionCompletedAt
       exec := out.2 })

/-- Model of `pauseMission`: unconditionally writes mission status `pending`. -/
def pauseMission (_ : MissionStatus) : MissionStatus := .pending

/-- Model of `cancelMission`: unconditionally writes mission status `failed`. -/
def cancelMission (_ : MissionStatus) : MissionStatus := .failed

/-- The `resume` action of `PATCH /api/missions/[id]`: unconditionally
writes mission status `executing`. -/
def resumeAction (_ : MissionStatus) : MissionStatus := .executing

/-- One row of the `plans` table, restricted to the columns the revision
operations touch. -/
structure PlanRow where
  id : String
  missionId : String
  version : Int
  status : PlanStatus
deriving DecidableEq

/-- One row of the `tasks` table as touched by `updatePlan`: the owning
plan and the task id. -/
structure TaskRef where
  planId : String
  taskId : String
deriving DecidableEq

/-- The plans and tasks tables, for the revision operations. -/
structure PlansDb where
  plans : List PlanRow
  tasks : List TaskRef
deriving DecidableEq

/-- Model of `PlanningEngine.updatePlan` (persistence effect): update the plan row
in place with `version := plan.version + 1`, delete every task row of the
plan, and insert the regenerated tasks under the same plan id. -/
def updatePlan (plan : PlanRow) (newTaskIds : List String) (db : PlansDb) : PlansDb :=
  { plans := db.plans.map (fun r =>
      if r.id == plan.id then { r with version := plan.version + 1 } else r)
    tasks := db.tasks.filter (fun tr => tr.planId != plan.id) ++
             newTaskIds.map (fun i => TaskRef.mk plan.id i) }

/-- Model of `GoalOrientedEngine.adjustStrategy` (revision branch, persistence
effect): insert a new plan row with `version := plan.version + 1` and
status `draft`, then mark the old plan row `superseded`. -/
def adjustStrategy (plan : PlanRow) (newId : String) (db : PlansDb) : PlansDb :=
  let db1 : PlansDb :=
    { db with plans := db.plans ++ [PlanRow.mk newId plan.missionId (plan.version + 1) .draft] }
  { db1 with plans := db1.plans.map (fun r =>
      if r.id == plan.id then { r with status := .superseded } else r) }

/-- The dependency-order property of an emitted sequence: every
dependency id of an emitted task that refers to a task of the set occurs
among the ids emitted strictly earlier. -/
def orderOK (tasks : List Task) (sorted : List Task) : Prop :=
  ∀ l₁ t l₂, sorted = l₁ ++ t :: l₂ → ∀ d ∈ t.dependencies, d ∈ taskIds tasks →
    d ∈ l₁.map (·.id)

/-- Invariant of the traversal state: `visited` and the emitted ids
agree, emitted tasks come from the set, no id is emitted twice, and the
emitted sequence is dependency-ordered. -/
def Inv (tasks : List Task) (st : SortSt) : Prop :=
  st.visited.Perm (st.sorted.map (·.id)) ∧
  (∀ u ∈ st.sorted, u ∈ tasks) ∧
  (st.sorted.map (·.id)).Nodup ∧
  orderOK tasks st.sorted

/-- Invariant of the `visiting` stack: distinct ids of the set, each
entry a dependency of the entry pushed just before it. -/
def VisInv (tasks : List Task) (vis : List String) : Prop :=
  vis.Nodup ∧ (∀ a ∈ vis, a ∈ taskIds tasks) ∧
  vis.Chain' (fun a b => depStep tasks b a)

/-- Relation between the states before and after a successful recursive
visit: the invariant is preserved, the `visiting` stack is restored,
`visited` only grows (by ids not on the entry `visiting` stack) and the
output is extended. -/
def PostOk (tasks : List Task) (st st' : SortSt) : Prop :=
  Inv tasks st' ∧ st'.visiting = st.visiting ∧
  (∀ a ∈ st.visited, a ∈ st'.visited) ∧
  (∀ a ∈ st'.visited, a ∈ st.visited ∨ a ∉ st.visiting) ∧
  (∃ ext, st'.sorted = st.sorted ++ ext)

/-- Number of distinct task ids not yet on the `visiting` stack; the
recursion depth bound. -/
def freshCount (tasks : List Task) (vis : List String) : Nat :=
  ((taskIds tasks).toFinset \ vis.toFinset).card

example :
    sortTasksByPriorityAndDependencies
      [⟨"a", "A", 2, []⟩, ⟨"b", "B", 0, ["a"]⟩, ⟨"c", "C", 1, []⟩] =
    .ok [⟨"a", "A", 2, []⟩, ⟨"b", "B", 0, ["a"]⟩, ⟨"c", "C", 1, []⟩] := rfl

example :
    sortTasksByPriorityAndDependencies
      [⟨"a", "A", 0, ["b"]⟩, ⟨"b", "B", 1, ["a"]⟩] =
    .error (cycleMsg "A") := rfl

theorem contains_iff (l : List String) (a : String) : l.contains a = true ↔ a ∈ l := by
  simp

theorem mem_taskIds {tasks : List Task} {t : Task} (h : t ∈ tasks) : t.id ∈ taskIds tasks :=
  List.mem_map_of_mem _ h

theorem freshCount_push (tasks : List Task) (vis : List String) (a : String)
    (ha : a ∈ taskIds tasks) (hvis : a ∉ vis) :
    freshCount tasks (a :: vis) < freshCount tasks vis := by
  apply Finset.card_lt_card
  rw [Finset.ssubset_iff_of_subset]
  · refine ⟨a, ?_, ?_⟩
    · rw [Finset.mem_sdiff]
      exact ⟨List.mem_toFinset.2 ha, fun hc => hvis (List.mem_toFinset.1 hc)⟩
    · rw [Finset.mem_sdiff]
      intro hc
      exact hc.2 (List.mem_toFinset.2 (List.mem_cons_self a vis))
  · apply Finset.sdiff_subset_sdiff (le_refl _)
    intro x hx
    exact List.mem_toFinset.2 (List.mem_cons_of_mem a (List.mem_toFinset.1 hx))

theorem freshCount_le_length (tasks : List Task) :
    freshCount tasks [] ≤ tasks.length := by
  unfold freshCount
  calc ((taskIds tasks).toFinset \ ([] : List String).toFinset).card
      ≤ (taskIds tasks).toFinset.card := Finset.card_le_card (Finset.sdiff_subset)
    _ ≤ (taskIds tasks).length := List.toFinset_card_le _
    _ = tasks.length := List.length_map _ _

theorem chain_reach (tasks : List Task) :
    ∀ l : List String, l.Chain' (fun a b => depStep tasks b a) →
      ∀ x ∈ l, ∀ h, l.head? = some h → Relation.ReflTransGen (depStep tasks) x h := by
  intro l
  induction l with
  | nil => intro _ x hx; exact absurd hx (List.not_mem_nil x)
  | cons a r ih =>
    intro hch x hx h hh
    have ha : a = h := by simpa using hh
    subst ha
    rcases List.mem_cons.1 hx with hxa | hxr
    · subst hxa; exact Relation.ReflTransGen.refl
    · cases r with
      | nil => exact absurd hxr (List.not_mem_nil x)
      | cons b r' =>
        have hstep : depStep tasks b a := (List.chain'_cons.1 hch).1
        have htl := (List.chain'_cons.1 hch).2
        exact Relation.ReflTransGen.tail (ih htl x hxr b rfl) hstep

theorem cycle_of_visiting_mem (tasks : List Task) (vis : List String) (p : String)
    (r : List String) (hvis : vis = p :: r)
    (hch : vis.Chain' (fun a b => depStep tasks b a)) (t : Task)
    (hmem : t.id ∈ vis) (hdep : depStep tasks p t.id) : inCycle tasks t.id := by
  apply Relation.TransGen.tail' _ hdep
  exact chain_reach tasks vis hch t.id hmem p (by rw [hvis]; rfl)

theorem append_singleton_split {α : Type} (l l₁ l₂ : List α) (u t : α)
    (h : l ++ [t] = l₁ ++ u :: l₂) :
    (∃ l₂', l = l₁ ++ u :: l₂' ∧ l₂ = l₂' ++ [t]) ∨ (l₁ = l ∧ u = t ∧ l₂ = []) := by
  rcases List.eq_nil_or_concat l₂ with h2 | ⟨l₂', x, h2⟩
  · subst h2
    have h' : l ++ [t] = l₁ ++ [u] := h
    have h2 := List.append_inj' h' rfl
    have htu : t = u := by simpa using h2.2
    exact Or.inr ⟨h2.1.symm, htu.symm, rfl⟩
  · subst h2
    have h' : l ++ [t] = (l₁ ++ u :: l₂') ++ [x] := by
      rw [h, List.concat_eq_append]
      simp
    have h2 := List.append_inj' h' rfl
    have hx : t = x := by simpa using h2.2
    refine Or.inl ⟨l₂', h2.1, ?_⟩
    rw [List.concat_eq_append, hx]

theorem postOk_refl (tasks : List Task) (st : SortSt) (hInv : Inv tasks st) :
    PostOk tasks st st :=
  ⟨hInv, rfl, fun _ ha => ha, fun _ ha => Or.inl ha, ⟨[], (List.append_nil _).symm⟩⟩

theorem postOk_trans (tasks : List Task) (st st₂ st' : SortSt)
    (h1 : PostOk tasks st st₂) (h2 : PostOk tasks st₂ st') : PostOk tasks st st' := by
  obtain ⟨hInv1, hvis1, hmono1, hnew1, ext1, hext1⟩ := h1
  obtain ⟨hInv2, hvis2, hmono2, hnew2, ext2, hext2⟩ := h2
  refine ⟨hInv2, hvis2.trans hvis1, fun a ha => hmono2 a (hmono1 a ha), ?_, ?_⟩
  · intro a ha
    rcases hnew2 a ha with hold | hnv
    · rcases hnew1 a hold with h | h
      · exact Or.inl h
      · exact Or.inr h
    · rw [hvis1] at hnv
      exact Or.inr hnv
  · exact ⟨ext1 ++ ext2, by rw [hext2, hext1, List.append_assoc]⟩

theorem vda_master (tasks : List Task) (f : SortSt → Task → Except String SortSt)
    (vis₀ : List String)
    (hf : ∀ st t, st.visiting = vis₀ → Inv tasks st → VisInv tasks vis₀ → t ∈ tasks →
      (∃ p r, vis₀ = p :: r ∧ depStep tasks p t.id) →
      (∃ st', f st t = .ok st' ∧ PostOk tasks st st' ∧ t.id ∈ st'.visited) ∨
      (∃ u, u ∈ tasks ∧ inCycle tasks u.id ∧ f st t = .error (cycleMsg u.title))) :
    ∀ (ds : List String) (st : SortSt), st.visiting = vis₀ → Inv tasks st →
      VisInv tasks vis₀ →
      (∃ p r, vis₀ = p :: r ∧ ∀ d ∈ ds, depStep tasks p d) →
      (∃ st', visitDepsAux f tasks st ds = .ok st' ∧ PostOk tasks st st' ∧
        ∀ d ∈ ds, d ∈ taskIds tasks → d ∈ st'.visited) ∨
      (∃ u, u ∈ tasks ∧ inCycle tasks u.id ∧
        visitDepsAux f tasks st ds = .error (cycleMsg u.title)) := by
  intro ds
  induction ds with
  | nil =>
    intro st hv hInv hVis _
    exact Or.inl ⟨st, rfl, postOk_refl tasks st hInv,
      fun d hd => absurd hd (List.not_mem_nil d)⟩
  | cons d ds ih =>
    intro st hv hInv hVis hdeps
    obtain ⟨p, r, hpr, hall⟩ := hdeps
    have hdeps' : ∃ p r, vis₀ = p :: r ∧ ∀ d' ∈ ds, depStep tasks p d' :=
      ⟨p, r, hpr, fun d' hd' => hall d' (List.mem_cons_of_mem d hd')⟩
    cases hfind : tasks.find? (fun u => u.id == d) with
    | none =>
      have hd_not : d ∉ taskIds tasks := by
        intro hd
        obtain ⟨u, hu, hid⟩ := List.mem_map.1 hd
        exact (List.find?_eq_none.1 hfind u hu) (beq_iff_eq.2 hid)
      rcases ih st hv hInv hVis hdeps' with ⟨st', hok, hpost, hmem⟩ | ⟨u, hu, hc, herr⟩
      · left
        refine ⟨st', by simp [visitDepsAux, hfind, hok], hpost, ?_⟩
        intro d' hd' hid'
        rcases List.mem_cons.1 hd' with h | h
        · subst h; exact absurd hid' hd_not
        · exact hmem d' h hid'
      · right; exact ⟨u, hu, hc, by simp [visitDepsAux, hfind, herr]⟩
    | some u =>
      have hu_mem : u ∈ tasks := List.mem_of_find?_eq_some hfind
      have hu_id : u.id = d := by
        have hpu := List.find?_some hfind
        simpa using hpu
      have hstep : depStep tasks p u.id := by
        rw [hu_id]; exact hall d (List.mem_cons_self d ds)
      rcases hf st u hv hInv hVis hu_mem ⟨p, r, hpr, hstep⟩ with
        ⟨st₂, hok2, hpost2, hid2⟩ | ⟨w, hw, hcw, herr2⟩
      · have hv₂ : st₂.visiting = vis₀ := by rw [hpost2.2.1, hv]
        rcases ih st₂ hv₂ hpost2.1 hVis hdeps' with
          ⟨st', hok', hpost', hmem'⟩ | ⟨w, hw, hcw, herr'⟩
        · left
          refine ⟨st', by simp [visitDepsAux, hfind, hok2, hok'],
            postOk_trans tasks st st₂ st' hpost2 hpost', ?_⟩
          intro d' hd' hid'
          rcases List.mem_cons.1 hd' with h | h
          · subst h; rw [← hu_id]; exact hpost'.2.2.1 u.id hid2
          · exact hmem' d' h hid'
        · right; exact ⟨w, hw, hcw, by simp [visitDepsAux, hfind, hok2, herr']⟩
      · right; exact ⟨w, hw, hcw, by simp [visitDepsAux, hfind, herr2]⟩

theorem visit_master (tasks : List Task) : ∀ (fuel : Nat) (st : SortSt) (t : Task),
    Inv tasks st → VisInv tasks st.visiting → t ∈ tasks →
    (st.visiting = [] ∨ ∃ p r, st.visiting = p :: r ∧ depStep tasks p t.id) →
    freshCount tasks st.visiting < fuel →
    (∃ st', visit tasks fuel st t = .ok st' ∧ PostOk tasks st st' ∧ t.id ∈ st'.visited) ∨
    (∃ u, u ∈ tasks ∧ inCycle tasks u.id ∧
      visit tasks fuel st t = .error (cycleMsg u.title)) := by
  intro fuel
  induction fuel with
  | zero => intro st t _ _ _ _ hcount; exact absurd hcount (Nat.not_lt_zero _)
  | succ fuel ih =>
    intro st t hInv hVis ht hentry hcount
    by_cases hvism : t.id ∈ st.visiting
    · right
      have hvisc : st.visiting.contains t.id = true := (contains_iff _ _).2 hvism
      refine ⟨t, ht, ?_, by simp [visit, hvism]⟩
      rcases hentry with h0 | ⟨p, r, hpr, hdep⟩
      · rw [h0] at hvism; exact absurd hvism (List.not_mem_nil _)
      · exact cycle_of_visiting_mem tasks st.visiting p r hpr hVis.2.2 t hvism hdep
    · have hvisc : st.visiting.contains t.id = false := by
        rw [Bool.eq_false_iff]
        intro hc; exact hvism ((contains_iff _ _).1 hc)
      by_cases hvised : t.id ∈ st.visited
      · left
        have hvc : st.visited.contains t.id = true := (contains_iff _ _).2 hvised
        exact ⟨st, by simp [visit, hvism, hvised], postOk_refl tasks st hInv, hvised⟩
      · have hvc : st.visited.contains t.id = false := by
          rw [Bool.eq_false_iff]
          intro hc; exact hvised ((contains_iff _ _).1 hc)
        have hidt : t.id ∈ taskIds tasks := mem_taskIds ht
        have hcount₁ : freshCount tasks (t.id :: st.visiting) < fuel := by
          have hlt := freshCount_push tasks st.visiting t.id hidt hvism
          omega
        have hVis₁ : VisInv tasks (t.id :: st.visiting) := by
          refine ⟨List.nodup_cons.2 ⟨hvism, hVis.1⟩, ?_, ?_⟩
          · intro a ha
            rcases List.mem_cons.1 ha with h | h
            · subst h; exact hidt
            · exact hVis.2.1 a h
          · cases hv : st.visiting with
            | nil => simp
            | cons p r =>
              rcases hentry with h0 | ⟨p', r', hpr, hdep⟩
              · rw [h0] at hv; cases hv
              · rw [hv] at hpr
                injection hpr with h1 h2
                have hch : List.Chain' (fun a b => depStep tasks b a) (p :: r) := by
                  have hc := hVis.2.2
                  rw [hv] at hc
                  exact hc
                exact List.chain'_cons.2 ⟨h1 ▸ hdep, hch⟩
        have hf : ∀ st' t', st'.visiting = t.id :: st.visiting → Inv tasks st' →
            VisInv tasks (t.id :: st.visiting) → t' ∈ tasks →
            (∃ p r, t.id :: st.visiting = p :: r ∧ depStep tasks p t'.id) →
            (∃ st'', visit tasks fuel st' t' = .ok st'' ∧ PostOk tasks st' st'' ∧
              t'.id ∈ st''.visited) ∨
            (∃ u, u ∈ tasks ∧ inCycle tasks u.id ∧
              visit tasks fuel st' t' = .error (cycleMsg u.title)) := by
          intro st' t' hv' hInv' hVis' ht' hentry'
          exact ih st' t' hInv' (by rw [hv']; exact hVis') ht'
            (Or.inr (by rw [hv']; exact hentry')) (by rw [hv']; exact hcount₁)
        have hdeps : ∃ p r, t.id :: st.visiting = p :: r ∧
            ∀ d ∈ t.dependencies, depStep tasks p d :=
          ⟨t.id, st.visiting, rfl, fun d hd => ⟨t, ht, rfl, hd⟩⟩
        have hInv₁ : Inv tasks { st with visiting := t.id :: st.visiting } := hInv
        rcases vda_master tasks (visit tasks fuel) (t.id :: st.visiting) hf
            t.dependencies { st with visiting := t.id :: st.visiting } rfl hInv₁ hVis₁ hdeps with
          ⟨st₂, hok, hpost, halldeps⟩ | ⟨u, hu, hcu, herr⟩
        · left
          have hvis₂ : st₂.visiting = t.id :: st.visiting := hpost.2.1
          have herase : st₂.visiting.erase t.id = st.visiting := by
            rw [hvis₂]; exact List.erase_cons_head t.id st.visiting
          have hnotvised₂ : t.id ∉ st₂.visited := by
            intro hc
            rcases hpost.2.2.2.1 t.id hc with h | h
            · exact hvised h
            · exact h (List.mem_cons_self _ _)
          have hnotmap₂ : t.id ∉ st₂.sorted.map (·.id) := by
            intro hc
            exact hnotvised₂ ((hpost.1.1.mem_iff).2 hc)
          refine ⟨⟨st₂.visiting.erase t.id, t.id :: st₂.visited, st₂.sorted ++ [t]⟩,
            by simp [visit, hvism, hvised, hok], ?_, List.mem_cons_self _ _⟩
          have hInv' : Inv tasks ⟨st₂.visiting.erase t.id, t.id :: st₂.visited,
              st₂.sorted ++ [t]⟩ := by
            refine ⟨?_, ?_, ?_, ?_⟩
            · show (t.id :: st₂.visited).Perm ((st₂.sorted ++ [t]).map (·.id))
              rw [List.map_append]
              simp only [List.map_cons, List.map_nil]
              exact (hpost.1.1.cons t.id).trans (List.perm_append_singleton t.id _).symm
            · intro u hu
              rcases List.mem_append.1 hu with h | h
              · exact hpost.1.2.1 u h
              · rw [List.mem_singleton.1 h]; exact ht
            · show ((st₂.sorted ++ [t]).map (·.id)).Nodup
              rw [List.map_append]
              simp only [List.map_cons, List.map_nil]
              rw [(List.perm_append_singleton _ _).nodup_iff]
              exact List.nodup_cons.2 ⟨hnotmap₂, hpost.1.2.2.1⟩
            · intro l₁ u l₂ hsplit d hd hdid
              rcases append_singleton_split st₂.sorted l₁ l₂ u t hsplit with
                ⟨l₂', hl, _⟩ | ⟨hl₁, hu, _⟩
              · exact hpost.1.2.2.2 l₁ u l₂' hl d hd hdid
              · subst hl₁; subst hu
                exact (hpost.1.1.mem_iff).1 (halldeps d hd hdid)
          refine ⟨hInv', herase, ?_, ?_, ?_⟩
          · intro a ha
            exact List.mem_cons_of_mem _ (hpost.2.2.1 a ha)
          · intro a ha
            rcases List.mem_cons.1 ha with h | h
            · subst h; exact Or.inr hvism
            · rcases hpost.2.2.2.1 a h with h' | h'
              · exact Or.inl h'
              · exact Or.inr (fun hc => h' (List.mem_cons_of_mem _ hc))
          · obtain ⟨ext, hext⟩ := hpost.2.2.2.2
            exact ⟨ext ++ [t], by rw [hext]; simp⟩
        · right
          exact ⟨u, hu, hcu, by simp [visit, hvism, hvised, herr]⟩

theorem visitAll_master (tasks : List Task) (fuel : Nat)
    (hfuel : freshCount tasks [] < fuel) :
    ∀ (seeds : List Task) (st : SortSt), st.visiting = [] → Inv tasks st →
      (∀ t ∈ seeds, t ∈ tasks) →
      (∃ st', visitAll tasks fuel st seeds = .ok st' ∧ st'.visiting = [] ∧
        Inv tasks st' ∧ (∀ a ∈ st.visited, a ∈ st'.visited) ∧
        ∀ t ∈ seeds, t.id ∈ st'.visited) ∨
      (∃ u, u ∈ tasks ∧ inCycle tasks u.id ∧
        visitAll tasks fuel st seeds = .error (cycleMsg u.title)) := by
  intro seeds
  induction seeds with
  | nil =>
    intro st hv hInv _
    exact Or.inl ⟨st, rfl, hv, hInv, fun _ h => h, fun t h => absurd h (List.not_mem_nil t)⟩
  | cons t ts ih =>
    intro st hv hInv hsub
    have hVis : VisInv tasks st.visiting := by
      rw [hv]
      exact ⟨List.nodup_nil, fun a h => absurd h (List.not_mem_nil a), List.chain'_nil⟩
    have hcnt : freshCount tasks st.visiting < fuel := by rw [hv]; exact hfuel
    rcases visit_master tasks fuel st t hInv hVis (hsub t (List.mem_cons_self t ts))
        (Or.inl hv) hcnt with ⟨st₂, hok, hpost, hid⟩ | ⟨u, hu, hcu, herr⟩
    · have hv₂ : st₂.visiting = [] := by rw [hpost.2.1, hv]
      rcases ih st₂ hv₂ hpost.1 (fun u hu => hsub u (List.mem_cons_of_mem t hu)) with
        ⟨st', hok', hvis', hInv', hmono', hall'⟩ | ⟨u, hu, hcu, herr'⟩
      · left
        refine ⟨st', by simp [visitAll, hok, hok'], hvis', hInv', ?_, ?_⟩
        · intro a ha
          exact hmono' a (hpost.2.2.1 a ha)
        · intro u hu
          rcases List.mem_cons.1 hu with h | h
          · subst h; exact hmono' u.id hid
          · exact hall' u h
      · right; exact ⟨u, hu, hcu, by simp [visitAll, hok, herr']⟩
    · right; exact ⟨u, hu, hcu, by simp [visitAll, herr]⟩

theorem sortByPriority_perm (tasks : List Task) : (sortByPriority tasks).Perm tasks :=
  List.perm_insertionSort priLE tasks

theorem sortByPriority_sorted (tasks : List Task) :
    (sortByPriority tasks).Sorted priLE :=
  List.sorted_insertionSort priLE tasks

/-- Unconditional dichotomy of the sorter: either it succeeds and the
output uses each task id of the set exactly once in dependency-respecting
order, or it fails with a cycle error naming a task that lies on a
dependency cycle. -/
theorem sorter_cases (tasks : List Task) :
    (∃ l, sortTasksByPriorityAndDependencies tasks = .ok l ∧
      (∀ u ∈ l, u ∈ tasks) ∧ (l.map (·.id)).Nodup ∧
      (∀ t ∈ tasks, t.id ∈ l.map (·.id)) ∧ orderOK tasks l) ∨
    (∃ u, u ∈ tasks ∧ inCycle tasks u.id ∧
      sortTasksByPriorityAndDependencies tasks = .error (cycleMsg u.title)) := by
  have hfuel : freshCount tasks [] < tasks.length + 1 :=
    Nat.lt_succ_of_le (freshCount_le_length tasks)
  have hInv0 : Inv tasks (⟨[], [], []⟩ : SortSt) := by
    refine ⟨List.Perm.refl _, ?_, List.nodup_nil, ?_⟩
    · intro u hu; exact absurd hu (List.not_mem_nil u)
    · intro l₁ u l₂ hsplit
      exact absurd hsplit.symm (List.append_ne_nil_of_right_ne_nil l₁ (by simp))
  have hsub : ∀ t ∈ sortByPriority tasks, t ∈ tasks :=
    fun t ht => (sortByPriority_perm tasks).subset ht
  rcases visitAll_master tasks (tasks.length + 1) hfuel (sortByPriority tasks)
      ⟨[], [], []⟩ rfl hInv0 hsub with
    ⟨st', hok, _, hInv', _, hall'⟩ | ⟨u, hu, hcu, herr⟩
  · left
    refine ⟨st'.sorted, ?_, hInv'.2.1, hInv'.2.2.1, ?_, hInv'.2.2.2⟩
    · unfold sortTasksByPriorityAndDependencies
      rw [hok]
    · intro t ht
      have hts : t ∈ sortByPriority tasks := (sortByPriority_perm tasks).mem_iff.2 ht
      exact (hInv'.1.mem_iff).1 (hall' t hts)
  · right
    refine ⟨u, hu, hcu, ?_⟩
    unfold sortTasksByPriorityAndDependencies
    rw [herr]

/-- Any source of a dependency path is an id of the task set. -/
theorem transGen_src_mem (tasks : List Task) {a b : String}
    (h : Relation.TransGen (depStep tasks) a b) : a ∈ taskIds tasks := by
  induction h with
  | single h => obtain ⟨t, ht, hid, _⟩ := h; exact hid ▸ mem_taskIds ht
  | tail _ _ ih => exact ih

/-- Tasks of a set with distinct ids are determined by their id. -/
theorem id_inj (tasks : List Task) (hnd : (taskIds tasks).Nodup) :
    ∀ u ∈ tasks, ∀ v ∈ tasks, u.id = v.id → u = v :=
  List.inj_on_of_nodup_map hnd

/-- In a dependency-ordered duplicate-free output covering the task set,
every dependency edge strictly decreases the emitted position. -/
theorem pos_step (tasks l : List Task) (hnd : (taskIds tasks).Nodup)
    (hsub : ∀ u ∈ l, u ∈ tasks) (hlnd : (l.map (·.id)).Nodup)
    (hall : ∀ t ∈ tasks, t.id ∈ l.map (·.id)) (hord : orderOK tasks l)
    {a b : String} (hstep : depStep tasks a b) (hb : b ∈ taskIds tasks) :
    (l.map (·.id)).indexOf b < (l.map (·.id)).indexOf a := by
  obtain ⟨t, ht, hta, htb⟩ := hstep
  subst hta
  obtain ⟨u, hu, huid⟩ := List.mem_map.1 (hall t ht)
  have hut : u = t := id_inj tasks hnd u (hsub u hu) t ht huid
  subst hut
  obtain ⟨s, s', hsplit⟩ := List.append_of_mem hu
  have hdmem : b ∈ s.map (·.id) := hord s u s' hsplit b htb hb
  have hmap : l.map (·.id) = s.map (·.id) ++ u.id :: s'.map (·.id) := by
    rw [hsplit]; simp
  have hnodups : u.id ∉ s.map (·.id) := by
    rw [hmap] at hlnd
    have := List.disjoint_of_nodup_append hlnd
    intro hc
    exact this hc (List.mem_cons_self _ _)
  rw [hmap, List.indexOf_append_of_mem hdmem, List.indexOf_append_of_not_mem hnodups,
    List.indexOf_cons_self]
  have := List.indexOf_lt_length.2 hdmem
  omega

/-- Dependency paths strictly decrease the emitted position. -/
theorem pos_decreasing (tasks l : List Task) (hnd : (taskIds tasks).Nodup)
    (hsub : ∀ u ∈ l, u ∈ tasks) (hlnd : (l.map (·.id)).Nodup)
    (hall : ∀ t ∈ tasks, t.id ∈ l.map (·.id)) (hord : orderOK tasks l)
    {a b : String} (h : Relation.TransGen (depStep tasks) a b) :
    b ∈ taskIds tasks → (l.map (·.id)).indexOf b < (l.map (·.id)).indexOf a := by
  induction h with
  | single h => exact fun hb => pos_step tasks l hnd hsub hlnd hall hord h hb
  | tail hab hbc ih =>
    intro hc
    obtain ⟨t, ht, hid, hd⟩ := hbc
    have hbmem : t.id ∈ taskIds tasks := mem_taskIds ht
    rw [hid] at hbmem
    exact lt_trans (pos_step tasks l hnd hsub hlnd hall hord ⟨t, ht, hid, hd⟩ hc) (ih hbmem)

/-- A successful sort rules out dependency cycles. -/
theorem ok_no_cycle (tasks l : List Task) (hnd : (taskIds tasks).Nodup)
    (hsub : ∀ u ∈ l, u ∈ tasks) (hlnd : (l.map (·.id)).Nodup)
    (hall : ∀ t ∈ tasks, t.id ∈ l.map (·.id)) (hord : orderOK tasks l) :
    ∀ a, ¬ inCycle tasks a := by
  intro a hc
  have ha : a ∈ taskIds tasks := transGen_src_mem tasks hc
  exact absurd (pos_decreasing tasks l hnd hsub hlnd hall hord hc ha) (lt_irrefl _)

/-- A certificate for acyclicity: a rank function decreasing along every
dependency edge rules out cycles. -/
theorem no_cycle_of_rank (tasks : List Task) (rank : String → Nat)
    (h : ∀ t ∈ tasks, ∀ d ∈ t.dependencies, rank d < rank t.id) :
    ∀ a, ¬ inCycle tasks a := by
  have hdesc : ∀ a b, Relation.TransGen (depStep tasks) a b → rank b < rank a := by
    intro a b hab
    induction hab with
    | single hs =>
      obtain ⟨t, ht, hid, hd⟩ := hs
      exact hid ▸ h t ht _ hd
    | tail _ hs ih =>
      obtain ⟨t, ht, hid, hd⟩ := hs
      exact lt_trans (hid ▸ h t ht _ hd) ih
  intro a hc
  exact absurd (hdesc a a hc) (lt_irrefl _)

/-- C1: for every task set with distinct ids whose dependency ids all
refer to tasks of the set and whose dependency graph is acyclic, the
Task Graph Sorter returns a permutation of the input (each input task
occurs exactly once), and every dependency of an emitted task occurs
strictly earlier in the output than the task itself. -/
theorem C1_sorter_topological (tasks : List Task)
    (hnd : (taskIds tasks).Nodup)
    (hvalid : ∀ t ∈ tasks, ∀ d ∈ t.dependencies, d ∈ taskIds tasks)
    (hacyc : ∀ a, ¬ inCycle tasks a) :
    ∃ l, sortTasksByPriorityAndDependencies tasks = .ok l ∧ l.Perm tasks ∧
      ∀ l₁ t l₂, l = l₁ ++ t :: l₂ → ∀ d ∈ t.dependencies, ∃ u ∈ l₁, u.id = d := by
  rcases sorter_cases tasks with ⟨l, hok, hsub, hlnd, hall, hord⟩ | ⟨u, _, hcu, _⟩
  · refine ⟨l, hok, ?_, ?_⟩
    · have hlnodup : l.Nodup := hlnd.of_map
      have htnodup : tasks.Nodup := hnd.of_map
      rw [List.perm_ext_iff_of_nodup hlnodup htnodup]
      intro t
      constructor
      · exact fun h => hsub t h
      · intro h
        obtain ⟨u, hu, huid⟩ := List.mem_map.1 (hall t h)
        have hut := id_inj tasks hnd u (hsub u hu) t h huid
        rwa [← hut]
    · intro l₁ t l₂ hsplit d hd
      have htmem : t ∈ tasks :=
        hsub t (hsplit ▸ List.mem_append.2 (Or.inr (List.mem_cons_self _ _)))
      have hdm : d ∈ l₁.map (·.id) := hord l₁ t l₂ hsplit d hd (hvalid t htmem d hd)
      obtain ⟨u, hu, huid⟩ := List.mem_map.1 hdm
      exact ⟨u, hu, huid⟩
  · exact absurd hcu (hacyc u.id)

/-- Witness for C1 at a concrete two-task acyclic set. -/
theorem C1_sorter_topological_witness :
    ∃ l, sortTasksByPriorityAndDependencies
        [⟨"a", "A", 2, []⟩, ⟨"b", "B", 1, ["a"]⟩] = .ok l ∧
      l.Perm [⟨"a", "A", 2, []⟩, ⟨"b", "B", 1, ["a"]⟩] ∧
      ∀ l₁ t l₂, l = l₁ ++ t :: l₂ → ∀ d ∈ t.dependencies, ∃ u ∈ l₁, u.id = d :=
  C1_sorter_topological [⟨"a", "A", 2, []⟩, ⟨"b", "B", 1, ["a"]⟩] (by decide) (by decide)
    (no_cycle_of_rank _ (fun s => if s = "a" then 0 else 1) (by decide))

/-- C2: a task set (with distinct ids) containing a dependency cycle
makes the sorter fail with an error naming a task that lies on a cycle
and produce no ordering; plan execution then fails immediately: no task
row, usage row or clock is touched, the plan is marked `failed` and the
executor reports failure with that error and empty task sets. -/
theorem C2_cycle_fails_plan (tasks : List Task)
    (hnd : (taskIds tasks).Nodup)
    (hcyc : ∃ a, inCycle tasks a) :
    ∃ u, u ∈ tasks ∧ inCycle tasks u.id ∧
      sortTasksByPriorityAndDependencies tasks = .error (cycleMsg u.title) ∧
      ∀ behavior st, executePlan tasks behavior st =
        (⟨false, [], [], some (cycleMsg u.title)⟩,
         { st with planStatus := PlanStatus.failed }) := by
  rcases sorter_cases tasks with ⟨l, hok, hsub, hlnd, hall, hord⟩ | ⟨u, hu, hcu, herr⟩
  · obtain ⟨a, ha⟩ := hcyc
    exact absurd ha (ok_no_cycle tasks l hnd hsub hlnd hall hord a)
  · refine ⟨u, hu, hcu, herr, ?_⟩
    intro behavior st
    simp [executePlan, herr]

/-- Witness for C2 at a concrete two-task cyclic set, with a concrete
behaviour oracle and initial state. -/
theorem C2_cycle_fails_plan_witness :
    ∃ u, u ∈ ([⟨"a", "A", 0, ["b"]⟩, ⟨"b", "B", 1, ["a"]⟩] : List Task) ∧
      inCycle [⟨"a", "A", 0, ["b"]⟩, ⟨"b", "B", 1, ["a"]⟩] u.id ∧
      sortTasksByPriorityAndDependencies [⟨"a", "A", 0, ["b"]⟩, ⟨"b", "B", 1, ["a"]⟩] =
        .error (cycleMsg u.title) ∧
      executePlan [⟨"a", "A", 0, ["b"]⟩, ⟨"b", "B", 1, ["a"]⟩]
        (fun _ => TaskBehavior.noTool)
        ⟨fun _ => ⟨.pending, none, none, none⟩, .draft, [], 0⟩ =
      (⟨false, [], [], some (cycleMsg u.title)⟩,
       { (⟨fun _ => ⟨.pending, none, none, none⟩, .draft, [], 0⟩ : ExecSt) with
         planStatus := PlanStatus.failed }) := by
  obtain ⟨u, h1, h2, h3, h4⟩ :=
    C2_cycle_fails_plan [⟨"a", "A", 0, ["b"]⟩, ⟨"b", "B", 1, ["a"]⟩] (by decide)
      ⟨"a", Relation.TransGen.head
        ⟨⟨"a", "A", 0, ["b"]⟩, by decide, rfl, by decide⟩
        (Relation.TransGen.single ⟨⟨"b", "B", 1, ["a"]⟩, by decide, rfl, by decide⟩)⟩
  exact ⟨u, h1, h2, h3, h4 (fun _ => TaskBehavior.noTool)
    ⟨fun _ => ⟨.pending, none, none, none⟩, .draft, [], 0⟩⟩

/-- C4 counterexample: when the tool returns a structured failure result
(`success: false`), the executor persists the tool result's `data` field
— not the error message — as the task's result payload. -/
theorem C4_structured_failure_persists_data :
    ((executeTask
        (fun _ => TaskBehavior.invoke "tool"
          (ToolInvocationOutcome.returns ⟨false, some "d", some "boom"⟩ 5))
        ⟨"t1", "T1", 0, []⟩
        ⟨fun _ => ⟨.pending, none, none, none⟩, .draft, [], 0⟩).2.rows "t1").result =
      some (TaskResultPayload.fromData (some "d")) ∧
    TaskResultPayload.fromData (some "d") ≠ TaskResultPayload.errorObj "boom" :=
  ⟨rfl, by decide⟩

/-- C4 amended: on a raised error the executor transitions the task to
`failed`, stamps its completion time and persists the error message as
the result payload; on a structured failure result it transitions the
task to `failed` and stamps the completion time, but persists the tool
result's `data` field as the result payload (the error text goes to the
tool-usage record instead). -/
theorem C4_tool_failure_marks_failed (behavior : String → TaskBehavior) (t : Task)
    (st : ExecSt) :
    (∀ name r dur, behavior t.id = .invoke name (.returns r dur) → r.success = false →
      ((executeTask behavior t st).2.rows t.id).status = .failed ∧
      ((executeTask behavior t st).2.rows t.id).completedAt ≠ none ∧
      ((executeTask behavior t st).2.rows t.id).result = some (.fromData r.data) ∧
      (executeTask behavior t st).1 = .ok r) ∧
    (∀ name msg dur, behavior t.id = .invoke name (.throws msg dur) →
      ((executeTask behavior t st).2.rows t.id).status = .failed ∧
      ((executeTask behavior t st).2.rows t.id).completedAt ≠ none ∧
      ((executeTask behavior t st).2.rows t.id).result = some (.errorObj msg) ∧
      (executeTask behavior t st).1 = .error msg) := by
  constructor
  · intro name r dur hb hsucc
    simp [executeTask, executeTool, hb, hsucc, setRow]
  · intro name msg dur hb
    simp [executeTask, executeTool, hb, setRow]

/-- Witness for the amended C4 at a concrete task, state and failing
structured result. -/
theorem C4_tool_failure_marks_failed_witness :
    ((executeTask
        (fun _ => TaskBehavior.invoke "tool"
          (ToolInvocationOutcome.returns ⟨false, some "d", some "boom"⟩ 5))
        ⟨"t1", "T1", 0, []⟩
        ⟨fun _ => ⟨.pending, none, none, none⟩, .draft, [], 0⟩).2.rows "t1").status =
        TaskStatus.failed ∧
    ((executeTask
        (fun _ => TaskBehavior.invoke "tool"
          (ToolInvocationOutcome.returns ⟨false, some "d", some "boom"⟩ 5))
        ⟨"t1", "T1", 0, []⟩
        ⟨fun _ => ⟨.pending, none, none, none⟩, .draft, [], 0⟩).2.rows "t1").completedAt ≠
        none ∧
    ((executeTask
        (fun _ => TaskBehavior.invoke "tool"
          (ToolInvocationOutcome.returns ⟨false, some "d", some "boom"⟩ 5))
        ⟨"t1", "T1", 0, []⟩
        ⟨fun _ => ⟨.pending, none, none, none⟩, .draft, [], 0⟩).2.rows "t1").result =
        some (.fromData (some "d")) ∧
    (executeTask
        (fun _ => TaskBehavior.invoke "tool"
          (ToolInvocationOutcome.returns ⟨false, some "d", some "boom"⟩ 5))
        ⟨"t1", "T1", 0, []⟩
        ⟨fun _ => ⟨.pending, none, none, none⟩, .draft, [], 0⟩).1 =
        .ok ⟨false, some "d", some "boom"⟩ :=
  (C4_tool_failure_marks_failed
      (fun _ => TaskBehavior.invoke "tool"
        (ToolInvocationOutcome.returns ⟨false, some "d", some "boom"⟩ 5))
      ⟨"t1", "T1", 0, []⟩
      ⟨fun _ => ⟨.pending, none, none, none⟩, .draft, [], 0⟩).1
    "tool" ⟨false, some "d", some "boom"⟩ 5 rfl rfl

/-- C6 counterexample: pausing a mission already in the terminal state
`completed` moves it back to `pending`. -/
theorem C6_pause_moves_completed :
    pauseMission MissionStatus.completed = MissionStatus.pending ∧
    MissionStatus.pending ≠ MissionStatus.completed := by decide

/-- C6 amended: pause, cancel and the route's resume action write their
target status (`pending`, `failed`, `executing`) unconditionally, from
any current status, the terminal ones included. -/
theorem C6_transitions_unconditional (s : MissionStatus) :
    pauseMission s = MissionStatus.pending ∧
    cancelMission s = MissionStatus.failed ∧
    resumeAction s = MissionStatus.executing :=
  ⟨rfl, rfl, rfl⟩

/-- C7: every tool invocation performed by the task executor appends
exactly one tool-usage record, carrying the measured duration, a success
flag matching the outcome, and the error text of a failure (the result's
error field, or the thrown message). -/
theorem C7_tool_usage_record (behavior : String → TaskBehavior) (t : Task) (st : ExecSt)
    (name : String) (o : ToolInvocationOutcome)
    (hb : behavior t.id = .invoke name o) :
    (executeTask behavior t st).2.usage =
      st.usage ++ [match o with
        | .returns r dur => ⟨t.id, name, r.data, r.success, dur, r.error⟩
        | .throws msg dur => ⟨t.id, name, none, false, dur, some msg⟩] := by
  cases o with
  | returns r dur =>
    cases hs : r.success <;> simp [executeTask, executeTool, hb, setRow, hs]
  | throws msg dur => simp [executeTask, executeTool, hb, setRow]

/-- Witness for C7 at a concrete task, state and thrown outcome. -/
theorem C7_tool_usage_record_witness :
    (executeTask
        (fun _ => TaskBehavior.invoke "scraper" (ToolInvocationOutcome.throws "down" 7))
        ⟨"t1", "T1", 0, []⟩
        ⟨fun _ => ⟨.pending, none, none, none⟩, .draft, [], 0⟩).2.usage =
      [] ++ [⟨"t1", "scraper", none, false, 7, some "down"⟩] :=
  C7_tool_usage_record
    (fun _ => TaskBehavior.invoke "scraper" (ToolInvocationOutcome.throws "down" 7))
    ⟨"t1", "T1", 0, []⟩
    ⟨fun _ => ⟨.pending, none, none, none⟩, .draft, [], 0⟩
    "scraper" (ToolInvocationOutcome.throws "down" 7) rfl

/-- C10: completion validation returns true exactly when the judge's
response parses with the completed flag true and a completion percentage
of at least 0.9; a judge error yields false. -/
theorem C10_validateCompletion (a : Except String Assessment) (e : String) :
    (validateCompletion a = true ↔
      ∃ d, a = .ok d ∧ d.completed = true ∧ (9 : ℚ) / 10 ≤ d.completionPercentage) ∧
    validateCompletion (.error e) = false := by
  refine ⟨?_, rfl⟩
  cases a with
  | error e' => simp [validateCompletion]
  | ok d => simp [validateCompletion]

/-- C8: `executeMission` always returns with the mission in a terminal
status, and a planning exception is caught: the mission is forced to
`failed` and an empty failure result carrying the error message is
returned. -/
theorem C8_executeMission_terminal (planning : Except String (List Task))
    (behavior : String → TaskBehavior) (assessment : Except String Assessment)
    (st : MissionSt) :
    ((executeMission planning behavior assessment st).2.missionStatus =
        MissionStatus.completed ∨
     (executeMission planning behavior assessment st).2.missionStatus =
        MissionStatus.failed) ∧
    ∀ e, planning = .error e →
      executeMission planning behavior assessment st =
        (⟨false, [], [], some e⟩, { st with missionStatus := MissionStatus.failed }) := by
  constructor
  · cases planning with
    | error e => right; rfl
    | ok tasks =>
      cases hv : validateCompletion assessment <;>
        simp [executeMission, hv]
  · intro e he
    subst he
    rfl

/-- Witness for C8 at a concrete failing planning call. -/
theorem C8_executeMission_terminal_witness :
    ((executeMission (.error "llm down") (fun _ => TaskBehavior.noTool) (.error "judge down")
        ⟨MissionStatus.pending, none, ⟨fun _ => ⟨.pending, none, none, none⟩, .draft, [], 0⟩⟩).2.missionStatus =
        MissionStatus.completed ∨
     (executeMission (.error "llm down") (fun _ => TaskBehavior.noTool) (.error "judge down")
        ⟨MissionStatus.pending, none, ⟨fun _ => ⟨.pending, none, none, none⟩, .draft, [], 0⟩⟩).2.missionStatus =
        MissionStatus.failed) ∧
    executeMission (.error "llm down") (fun _ => TaskBehavior.noTool) (.error "judge down")
        ⟨MissionStatus.pending, none, ⟨fun _ => ⟨.pending, none, none, none⟩, .draft, [], 0⟩⟩ =
      (⟨false, [], [], some "llm down"⟩,
       { (⟨MissionStatus.pending, none,
            ⟨fun _ => ⟨.pending, none, none, none⟩, .draft, [], 0⟩⟩ : MissionSt) with
         missionStatus := MissionStatus.failed }) := by
  have h := C8_executeMission_terminal (.error "llm down") (fun _ => TaskBehavior.noTool)
    (.error "judge down")
    ⟨MissionStatus.pending, none, ⟨fun _ => ⟨.pending, none, none, none⟩, .draft, [], 0⟩⟩
  exact ⟨h.1, h.2 "llm down" rfl⟩

/-- C5 counterexample: `updatePlan` on plan "p1" at version 1 leaves no
row at the prior version, marks nothing superseded and deletes the
plan's previous task rows. -/
theorem C5_updatePlan_overwrites :
    updatePlan ⟨"p1", "m1", 1, .active⟩ ["t2"]
        ⟨[⟨"p1", "m1", 1, .active⟩], [⟨"p1", "t1"⟩]⟩ =
      ⟨[⟨"p1", "m1", 2, .active⟩], [⟨"p1", "t2"⟩]⟩ ∧
    (∀ r ∈ (updatePlan ⟨"p1", "m1", 1, .active⟩ ["t2"]
        ⟨[⟨"p1", "m1", 1, .active⟩], [⟨"p1", "t1"⟩]⟩).plans,
      r.status ≠ PlanStatus.superseded ∧ r.version ≠ 1) ∧
    TaskRef.mk "p1" "t1" ∉ (updatePlan ⟨"p1", "m1", 1, .active⟩ ["t2"]
        ⟨[⟨"p1", "m1", 1, .active⟩], [⟨"p1", "t1"⟩]⟩).tasks := by
  decide

/-- C5 amended: `adjustStrategy` creates a new plan row with the version
raised by exactly 1 and marks the prior row `superseded`, retaining every
row; `updatePlan` also raises the version by exactly 1 but updates the
row in place: statuses are never changed to `superseded`, and the plan's
previous task rows are deleted unless regenerated. -/
theorem C5_revision_versioning :
    (∀ (plan : PlanRow) (newId : String) (db : PlansDb), newId ≠ plan.id →
      (adjustStrategy plan newId db).tasks = db.tasks ∧
      PlanRow.mk newId plan.missionId (plan.version + 1) .draft ∈
        (adjustStrategy plan newId db).plans ∧
      (∀ r ∈ db.plans, r.id = plan.id →
        { r with status := PlanStatus.superseded } ∈ (adjustStrategy plan newId db).plans) ∧
      (∀ r ∈ db.plans, r.id ≠ plan.id → r ∈ (adjustStrategy plan newId db).plans)) ∧
    (∀ (plan : PlanRow) (newTaskIds : List String) (db : PlansDb),
      (∀ r ∈ db.plans, r.id = plan.id →
        { r with version := plan.version + 1 } ∈ (updatePlan plan newTaskIds db).plans) ∧
      (∀ r ∈ (updatePlan plan newTaskIds db).plans, ∃ r₀ ∈ db.plans, r.status = r₀.status) ∧
      (∀ tr ∈ db.tasks, tr.planId = plan.id → tr.taskId ∉ newTaskIds →
        tr ∉ (updatePlan plan newTaskIds db).tasks)) := by
  constructor
  · intro plan newId db hne
    refine ⟨rfl, ?_, ?_, ?_⟩
    · apply List.mem_map.2
      refine ⟨PlanRow.mk newId plan.missionId (plan.version + 1) .draft, ?_, ?_⟩
      · exact List.mem_append.2 (Or.inr (List.mem_singleton.2 rfl))
      · simp [hne]
    · intro r hr hid
      apply List.mem_map.2
      exact ⟨r, List.mem_append.2 (Or.inl hr), by simp [hid]⟩
    · intro r hr hne'
      apply List.mem_map.2
      exact ⟨r, List.mem_append.2 (Or.inl hr), by simp [hne']⟩
  · intro plan newTaskIds db
    refine ⟨?_, ?_, ?_⟩
    · intro r hr hid
      apply List.mem_map.2
      exact ⟨r, hr, by simp [hid]⟩
    · intro r hr
      obtain ⟨r₀, hr₀, hfr⟩ := List.mem_map.1 hr
      refine ⟨r₀, hr₀, ?_⟩
      by_cases h : (r₀.id == plan.id) = true <;> simp [h] at hfr <;> rw [← hfr]
    · intro tr htr hpid hnid hmem
      rcases List.mem_append.1 hmem with h | h
      · have := List.of_mem_filter h
        simp [hpid] at this
      · obtain ⟨i, hi, heq⟩ := List.mem_map.1 h
        apply hnid
        rw [← heq] at hpid ⊢
        exact hi

/-- Witness for the amended C5 at concrete revision calls. -/
theorem C5_revision_versioning_witness :
    (adjustStrategy ⟨"p1", "m1", 1, .active⟩ "p2"
        ⟨[⟨"p1", "m1", 1, .active⟩], [⟨"p1", "t1"⟩]⟩).tasks = [⟨"p1", "t1"⟩] ∧
    PlanRow.mk "p2" "m1" 2 .draft ∈
      (adjustStrategy ⟨"p1", "m1", 1, .active⟩ "p2"
        ⟨[⟨"p1", "m1", 1, .active⟩], [⟨"p1", "t1"⟩]⟩).plans ∧
    PlanRow.mk "p1" "m1" 1 .superseded ∈
      (adjustStrategy ⟨"p1", "m1", 1, .active⟩ "p2"
        ⟨[⟨"p1", "m1", 1, .active⟩], [⟨"p1", "t1"⟩]⟩).plans ∧
    PlanRow.mk "p1" "m1" 2 .active ∈
      (updatePlan ⟨"p1", "m1", 1, .active⟩ ["t2"]
        ⟨[⟨"p1", "m1", 1, .active⟩], [⟨"p1", "t1"⟩]⟩).plans ∧
    TaskRef.mk "p1" "t1" ∉
      (updatePlan ⟨"p1", "m1", 1, .active⟩ ["t2"]
        ⟨[⟨"p1", "m1", 1, .active⟩], [⟨"p1", "t1"⟩]⟩).tasks := by
  have h := C5_revision_versioning
  have h1 := h.1 ⟨"p1", "m1", 1, .active⟩ "p2"
    ⟨[⟨"p1", "m1", 1, .active⟩], [⟨"p1", "t1"⟩]⟩ (by decide)
  have h2 := h.2 ⟨"p1", "m1", 1, .active⟩ ["t2"]
    ⟨[⟨"p1", "m1", 1, .active⟩], [⟨"p1", "t1"⟩]⟩
  refine ⟨h1.1, h1.2.1, ?_, ?_, ?_⟩
  · exact h1.2.2.1 ⟨"p1", "m1", 1, .active⟩ (by decide) rfl
  · exact h2.1 ⟨"p1", "m1", 1, .active⟩ (by decide) rfl
  · exact h2.2.2 ⟨"p1", "t1"⟩ (by decide) rfl (by decide)

/-- On dependency-free seeds the seed loop emits the seeds in order. -/
theorem visitAll_no_deps (tasks : List Task) (fuel : Nat) :
    ∀ (seeds : List Task) (st : SortSt),
      (∀ t ∈ seeds, t.dependencies = []) →
      (seeds.map (·.id)).Nodup →
      (∀ t ∈ seeds, t.id ∉ st.visited) →
      st.visiting = [] →
      visitAll tasks (fuel + 1) st seeds =
        .ok ⟨[], (seeds.map (·.id)).reverse ++ st.visited, st.sorted ++ seeds⟩ := by
  intro seeds
  induction seeds with
  | nil =>
    intro st _ _ _ hvis
    obtain ⟨v, vd, so⟩ := st
    simp only at hvis
    subst hvis
    simp [visitAll]
  | cons t ts ih =>
    intro st hdeps hnd hnvisited hvis
    have hdt : t.dependencies = [] := hdeps t (List.mem_cons_self t ts)
    have hnvt : t.id ∉ st.visited := hnvisited t (List.mem_cons_self t ts)
    have hvisit : visit tasks (fuel + 1) st t =
        .ok ⟨[], t.id :: st.visited, st.sorted ++ [t]⟩ := by
      have hnv : t.id ∉ st.visiting := by rw [hvis]; exact List.not_mem_nil _
      simp [visit, hnv, hnvt, hdt, visitDepsAux, hvis]
    have hred : visitAll tasks (fuel + 1) st (t :: ts) =
        visitAll tasks (fuel + 1) ⟨[], t.id :: st.visited, st.sorted ++ [t]⟩ ts := by
      rw [visitAll, hvisit]
    rw [hred]
    have hrest := ih ⟨[], t.id :: st.visited, st.sorted ++ [t]⟩
      (fun u hu => hdeps u (List.mem_cons_of_mem t hu))
      ((List.nodup_cons.1 (by simpa using hnd)).2)
      (fun u hu => by
        intro hc
        rcases List.mem_cons.1 hc with h | h
        · have : t.id ∉ List.map (·.id) ts := (List.nodup_cons.1 (by simpa using hnd)).1
          exact this (h ▸ List.mem_map_of_mem _ hu)
        · exact hnvisited u (List.mem_cons_of_mem t hu) h)
      rfl
    rw [hrest]
    simp

/-- With no dependencies anywhere, the sorter returns exactly the stable
priority sort of the input. -/
theorem sortTasks_no_deps (tasks : List Task)
    (hnd : (taskIds tasks).Nodup)
    (hdeps : ∀ t ∈ tasks, t.dependencies = []) :
    sortTasksByPriorityAndDependencies tasks = .ok (sortByPriority tasks) := by
  have hperm := sortByPriority_perm tasks
  have hsnd : ((sortByPriority tasks).map (·.id)).Nodup := by
    have : ((sortByPriority tasks).map (·.id)).Perm (taskIds tasks) := hperm.map _
    exact this.nodup_iff.2 hnd
  have h := visitAll_no_deps tasks tasks.length (sortByPriority tasks) ⟨[], [], []⟩
    (fun t ht => hdeps t (hperm.subset ht)) hsnd
    (fun t _ => List.not_mem_nil _) rfl
  unfold sortTasksByPriorityAndDependencies
  rw [h]
  simp

/-- The task loop on dependency-free, successful tasks executes every
task in order, accumulating them all as completed. -/
theorem runTasks_all_success (p : List Task) (b : String → TaskBehavior) :
    ∀ (l : List Task) (c f : List Task) (st : ExecSt),
      (∀ t ∈ l, t.dependencies = []) →
      (∀ t ∈ l, ∃ name r dur, b t.id = .invoke name (.returns r dur) ∧ r.success = true) →
      (runTasks p b (c, f, st) l).1 = c ++ l ∧ (runTasks p b (c, f, st) l).2.1 = f := by
  intro l
  induction l with
  | nil => intro c f st _ _; exact ⟨(List.append_nil c).symm, rfl⟩
  | cons t ts ih =>
    intro c f st hdeps hok
    obtain ⟨name, r, dur, hb, hsucc⟩ := hok t (List.mem_cons_self t ts)
    have hdt : t.dependencies = [] := hdeps t (List.mem_cons_self t ts)
    have hstep : runStep p b (c, f, st) t =
        (c ++ [t], f, (executeTask b t st).2) := by
      simp [runStep, hdt, executeTask, executeTool, hb, hsucc]
    have hfold : runTasks p b (c, f, st) (t :: ts) =
        runTasks p b (c ++ [t], f, (executeTask b t st).2) ts := by
      show List.foldl _ _ _ = _
      rw [List.foldl_cons, hstep]
      rfl
    rw [hfold]
    obtain ⟨h1, h2⟩ := ih (c ++ [t]) f (executeTask b t st).2
      (fun u hu => hdeps u (List.mem_cons_of_mem t hu))
      (fun u hu => hok u (List.mem_cons_of_mem t hu))
    refine ⟨?_, h2⟩
    rw [h1]
    simp

/-- C9: for a plan whose tasks all have empty dependency sets, the
executor runs the tasks in ascending numeric priority order (the sorter
returns exactly the stable priority sort), and when every tool call
succeeds the completed set is that whole sequence, the failed set is
empty and the plan's final status is `completed`. -/
theorem C9_priority_order_no_deps (tasks : List Task)
    (behavior : String → TaskBehavior) (st : ExecSt)
    (hnd : (taskIds tasks).Nodup)
    (hdeps : ∀ t ∈ tasks, t.dependencies = [])
    (hok : ∀ t ∈ tasks, ∃ name r dur,
      behavior t.id = .invoke name (.returns r dur) ∧ r.success = true) :
    ∃ l, sortTasksByPriorityAndDependencies tasks = .ok l ∧
      l.Perm tasks ∧ l.Sorted priLE ∧
      (executePlan tasks behavior st).1 = ⟨true, l, [], none⟩ ∧
      (executePlan tasks behavior st).2.planStatus = PlanStatus.completed := by
  have hsort := sortTasks_no_deps tasks hnd hdeps
  have hperm := sortByPriority_perm tasks
  refine ⟨sortByPriority tasks, hsort, hperm, sortByPriority_sorted tasks, ?_, ?_⟩
  · obtain ⟨h1, h2⟩ := runTasks_all_success tasks behavior (sortByPriority tasks) [] []
      { st with planStatus := PlanStatus.active }
      (fun t ht => hdeps t (hperm.subset ht))
      (fun t ht => hok t (hperm.subset ht))
    simp [executePlan, hsort, h1, h2]
  · obtain ⟨h1, h2⟩ := runTasks_all_success tasks behavior (sortByPriority tasks) [] []
      { st with planStatus := PlanStatus.active }
      (fun t ht => hdeps t (hperm.subset ht))
      (fun t ht => hok t (hperm.subset ht))
    simp [executePlan, hsort, h1, h2]

/-- Witness for C9 at three independent tasks of priorities 2, 0, 1. -/
theorem C9_priority_order_no_deps_witness :
    ∃ l, sortTasksByPriorityAndDependencies
        [⟨"x", "X", 2, []⟩, ⟨"y", "Y", 0, []⟩, ⟨"z", "Z", 1, []⟩] = .ok l ∧
      l.Perm [⟨"x", "X", 2, []⟩, ⟨"y", "Y", 0, []⟩, ⟨"z", "Z", 1, []⟩] ∧
      l.Sorted priLE ∧
      (executePlan [⟨"x", "X", 2, []⟩, ⟨"y", "Y", 0, []⟩, ⟨"z", "Z", 1, []⟩]
        (fun _ => TaskBehavior.invoke "tool" (ToolInvocationOutcome.returns ⟨true, none, none⟩ 1))
        ⟨fun _ => ⟨.pending, none, none, none⟩, .draft, [], 0⟩).1 = ⟨true, l, [], none⟩ ∧
      (executePlan [⟨"x", "X", 2, []⟩, ⟨"y", "Y", 0, []⟩, ⟨"z", "Z", 1, []⟩]
        (fun _ => TaskBehavior.invoke "tool" (ToolInvocationOutcome.returns ⟨true, none, none⟩ 1))
        ⟨fun _ => ⟨.pending, none, none, none⟩, .draft, [], 0⟩).2.planStatus =
        PlanStatus.completed :=
  C9_priority_order_no_deps
    [⟨"x", "X", 2, []⟩, ⟨"y", "Y", 0, []⟩, ⟨"z", "Z", 1, []⟩]
    (fun _ => TaskBehavior.invoke "tool" (ToolInvocationOutcome.returns ⟨true, none, none⟩ 1))
    ⟨fun _ => ⟨.pending, none, none, none⟩, .draft, [], 0⟩
    (by decide) (by decide)
    (fun t _ => ⟨"tool", ⟨true, none, none⟩, 1, rfl, rfl⟩)

example :
    (executePlan [⟨"x", "X", 2, []⟩, ⟨"y", "Y", 0, []⟩, ⟨"z", "Z", 1, []⟩]
      (fun _ => TaskBehavior.invoke "tool" (ToolInvocationOutcome.returns ⟨true, none, none⟩ 1))
      ⟨fun _ => ⟨.pending, none, none, none⟩, .draft, [], 0⟩).1.completedTasks =
    [⟨"y", "Y", 0, []⟩, ⟨"z", "Z", 1, []⟩, ⟨"x", "X", 2, []⟩] := rfl

/-- A task behaviour whose tool invocation fails: the tool is resolved
and invoked, and either returns a structured failure result or throws. -/
def failingInvoke : TaskBehavior → Prop
  | .invoke _ (.returns r _) => r.success = false
  | .invoke _ (.throws _ _) => True
  | .noTool => False

/-- Ids in one part of a duplicate-free split differ from the pivot. -/
theorem split_id_ne (l₁ l₂ : List Task) (A : Task)
    (h : ((l₁ ++ A :: l₂).map (·.id)).Nodup) :
    (∀ t ∈ l₁, t.id ≠ A.id) ∧ (∀ t ∈ l₂, t.id ≠ A.id) := by
  rw [List.map_append, List.map_cons] at h
  have hdisj := List.disjoint_of_nodup_append h
  have h2 : (A.id :: l₂.map (·.id)).Nodup := h.of_append_right
  refine ⟨?_, ?_⟩
  · intro t ht heq
    exact hdisj (List.mem_map_of_mem _ ht) (heq ▸ List.mem_cons_self _ _)
  · intro t ht heq
    exact (List.nodup_cons.1 h2).1 (heq ▸ List.mem_map_of_mem _ ht)

/-- The executor writes only the executed task's own row. -/
theorem executeTask_rows_ne (b : String → TaskBehavior) (t : Task) (st : ExecSt)
    (i : String) (hne : i ≠ t.id) :
    (executeTask b t st).2.rows i = st.rows i := by
  cases hb : b t.id with
  | noTool => simp [executeTask, hb, setRow, hne]
  | invoke name o =>
    cases o with
    | returns r dur => simp [executeTask, executeTool, hb, setRow, hne]
    | throws msg dur => simp [executeTask, executeTool, hb, setRow, hne]

/-- Every usage record appended by one task execution carries that
task's id. -/
theorem executeTask_usage_ids (b : String → TaskBehavior) (t : Task) (st : ExecSt) :
    ∃ new, (executeTask b t st).2.usage = st.usage ++ new ∧
      ∀ rec ∈ new, rec.taskId = t.id := by
  cases hb : b t.id with
  | noTool => exact ⟨[], by simp [executeTask, hb, setRow], by simp⟩
  | invoke name o =>
    cases o with
    | returns r dur =>
      refine ⟨[⟨t.id, name, r.data, r.success, dur, r.error⟩],
        by simp [executeTask, executeTool, hb, setRow], ?_⟩
      intro rec hrec
      rw [List.mem_singleton.1 hrec]
    | throws msg dur =>
      refine ⟨[⟨t.id, name, none, false, dur, some msg⟩],
        by simp [executeTask, executeTool, hb, setRow], ?_⟩
      intro rec hrec
      rw [List.mem_singleton.1 hrec]

/-- A skipped task leaves the accumulator unchanged. -/
theorem runStep_skip (p : List Task) (b : String → TaskBehavior)
    (acc : List Task × List Task × ExecSt) (t : Task)
    (h : (t.dependencies.filter (fun d => !(depCompleted p acc.2.2 d))).isEmpty = false) :
    runStep p b acc t = acc := by
  simp [runStep, h]

/-- A dependency-satisfied task with a failing tool invocation is added
to the failed set, its row ends `failed`, and the state advances by its
execution. -/
theorem runStep_exec_failing (p : List Task) (b : String → TaskBehavior)
    (acc : List Task × List Task × ExecSt) (t : Task)
    (hdeps : (t.dependencies.filter (fun d => !(depCompleted p acc.2.2 d))).isEmpty = true)
    (hfail : failingInvoke (b t.id)) :
    runStep p b acc t = (acc.1, acc.2.1 ++ [t], (executeTask b t acc.2.2).2) ∧
    ((executeTask b t acc.2.2).2.rows t.id).status = TaskStatus.failed := by
  cases hb : b t.id with
  | noTool =>
    rw [hb] at hfail
    exact absurd hfail (by simp [failingInvoke])
  | invoke name o =>
    cases o with
    | returns r dur =>
      have hrs : r.success = false := by rw [hb] at hfail; exact hfail
      constructor
      · simp [runStep, hdeps, executeTask, executeTool, hb, hrs]
      · simp [executeTask, executeTool, hb, hrs, setRow]
    | throws msg dur =>
      constructor
      · simp [runStep, hdeps, executeTask, executeTool, hb]
      · simp [executeTask, executeTool, hb, setRow]

/-- One loop iteration either keeps the state or advances it by the
task's execution. -/
theorem runStep_state (p : List Task) (b : String → TaskBehavior)
    (acc : List Task × List Task × ExecSt) (t : Task) :
    (runStep p b acc t).2.2 = acc.2.2 ∨
    (runStep p b acc t).2.2 = (executeTask b t acc.2.2).2 := by
  by_cases h : (t.dependencies.filter (fun d => !(depCompleted p acc.2.2 d))).isEmpty = true
  · right
    rcases hex : executeTask b t acc.2.2 with ⟨res, st'⟩
    cases res with
    | ok r => cases hr : r.success <;> simp [runStep, h, hex, hr]
    | error e => simp [runStep, h, hex]
  · left
    have h' : ¬ ∀ a ∈ t.dependencies, depCompleted p acc.2.2 a = true := by simpa using h
    simp [runStep, h']

/-- One loop iteration either keeps the failed set or appends the
task. -/
theorem runStep_failed (p : List Task) (b : String → TaskBehavior)
    (acc : List Task × List Task × ExecSt) (t : Task) :
    (runStep p b acc t).2.1 = acc.2.1 ∨
    (runStep p b acc t).2.1 = acc.2.1 ++ [t] := by
  by_cases h : (t.dependencies.filter (fun d => !(depCompleted p acc.2.2 d))).isEmpty = true
  · rcases hex : executeTask b t acc.2.2 with ⟨res, st'⟩
    cases res with
    | ok r =>
      cases hr : r.success
      · right; simp [runStep, h, hex, hr]
      · left; simp [runStep, h, hex, hr]
    | error e => right; simp [runStep, h, hex]
  · left
    have h' : ¬ ∀ a ∈ t.dependencies, depCompleted p acc.2.2 a = true := by simpa using h
    simp [runStep, h']

theorem runTasks_cons (p : List Task) (b : String → TaskBehavior)
    (acc : List Task × List Task × ExecSt) (t : Task) (ts : List Task) :
    runTasks p b acc (t :: ts) = runTasks p b (runStep p b acc t) ts := rfl

theorem runTasks_append (p : List Task) (b : String → TaskBehavior)
    (acc : List Task × List Task × ExecSt) (l₁ l₂ : List Task) :
    runTasks p b acc (l₁ ++ l₂) = runTasks p b (runTasks p b acc l₁) l₂ :=
  List.foldl_append _ _ _ _

/-- The loop writes only the rows of the ids it executes. -/
theorem runTasks_rows_ne (p : List Task) (b : String → TaskBehavior) :
    ∀ (l : List Task) (acc : List Task × List Task × ExecSt) (i : String),
      (∀ t ∈ l, t.id ≠ i) →
      (runTasks p b acc l).2.2.rows i = acc.2.2.rows i := by
  intro l
  induction l with
  | nil => intro acc i _; rfl
  | cons t ts ih =>
    intro acc i h
    have hstep : (runStep p b acc t).2.2.rows i = acc.2.2.rows i := by
      rcases runStep_state p b acc t with hs | hs
      · rw [hs]
      · rw [hs]
        exact executeTask_rows_ne b t acc.2.2 i
          (fun hc => h t (List.mem_cons_self t ts) hc.symm)
    rw [runTasks_cons,
      ih (runStep p b acc t) i (fun u hu => h u (List.mem_cons_of_mem t hu)), hstep]

/-- Every usage record appended by one loop iteration carries the
iterated task's id. -/
theorem runStep_usage_ids (p : List Task) (b : String → TaskBehavior)
    (acc : List Task × List Task × ExecSt) (t : Task) :
    ∃ new, (runStep p b acc t).2.2.usage = acc.2.2.usage ++ new ∧
      ∀ rec ∈ new, rec.taskId = t.id := by
  rcases runStep_state p b acc t with hs | hs
  · exact ⟨[], by rw [hs]; simp, by simp⟩
  · obtain ⟨new, h1, h2⟩ := executeTask_usage_ids b t acc.2.2
    exact ⟨new, by rw [hs]; exact h1, h2⟩

/-- Every usage record appended by the loop carries the id of one of the
iterated tasks. -/
theorem runTasks_usage_ids (p : List Task) (b : String → TaskBehavior) :
    ∀ (l : List Task) (acc : List Task × List Task × ExecSt), ∃ new,
      (runTasks p b acc l).2.2.usage = acc.2.2.usage ++ new ∧
      ∀ rec ∈ new, ∃ t ∈ l, rec.taskId = t.id := by
  intro l
  induction l with
  | nil =>
    intro acc
    exact ⟨[], by simp [runTasks], by simp⟩
  | cons t ts ih =>
    intro acc
    obtain ⟨n1, h1, h1ids⟩ := runStep_usage_ids p b acc t
    obtain ⟨n2, h2, h2ids⟩ := ih (runStep p b acc t)
    refine ⟨n1 ++ n2, ?_, ?_⟩
    · rw [runTasks_cons, h2, h1, List.append_assoc]
    · intro rec hrec
      rcases List.mem_append.1 hrec with h | h
      · exact ⟨t, List.mem_cons_self _ _, h1ids rec h⟩
      · obtain ⟨u, hu, hid⟩ := h2ids rec h
        exact ⟨u, List.mem_cons_of_mem _ hu, hid⟩

/-- The failed set only grows along the loop. -/
theorem runTasks_failed_mono (p : List Task) (b : String → TaskBehavior) :
    ∀ (l : List Task) (acc : List Task × List Task × ExecSt),
      ∃ more, (runTasks p b acc l).2.1 = acc.2.1 ++ more := by
  intro l
  induction l with
  | nil => intro acc; exact ⟨[], by simp [runTasks]⟩
  | cons t ts ih =>
    intro acc
    obtain ⟨more, hmore⟩ := ih (runStep p b acc t)
    rcases runStep_failed p b acc t with hs | hs
    · exact ⟨more, by rw [runTasks_cons, hmore, hs]⟩
    · exact ⟨[t] ++ more, by rw [runTasks_cons, hmore, hs, List.append_assoc]⟩

/-- Unfolding of `executePlan` on a successfully sorted plan. -/
theorem executePlan_ok_unfold (p : List Task) (b : String → TaskBehavior) (st : ExecSt)
    (l : List Task) (hok : sortTasksByPriorityAndDependencies p = .ok l) :
    executePlan p b st =
      (⟨(runTasks p b ([], [], { st with planStatus := PlanStatus.active }) l).2.1.isEmpty,
        (runTasks p b ([], [], { st with planStatus := PlanStatus.active }) l).1,
        (runTasks p b ([], [], { st with planStatus := PlanStatus.active }) l).2.1, none⟩,
       { (runTasks p b ([], [], { st with planStatus := PlanStatus.active }) l).2.2 with
         planStatus :=
           if (runTasks p b ([], [], { st with planStatus := PlanStatus.active }) l).2.1.isEmpty
           then PlanStatus.completed else PlanStatus.failed }) := by
  simp [executePlan, hok]

/-- Running a tail `m₁ ++ B :: m₂` from a state where A is `failed` and B
is `pending`, with no task of the tail sharing A's or B's id, skips B
(its dependency A is not completed) and leaves both rows unchanged. -/
theorem run_tail_skips_B (tasks : List Task) (behavior : String → TaskBehavior)
    (A B : Task) (m₁ m₂ : List Task) (acc : List Task × List Task × ExecSt)
    (hrowA : (acc.2.2.rows A.id).status = TaskStatus.failed)
    (hrowB : (acc.2.2.rows B.id).status = TaskStatus.pending)
    (hdep : A.id ∈ B.dependencies)
    (hm1A : ∀ t ∈ m₁, t.id ≠ A.id) (hm1B : ∀ t ∈ m₁, t.id ≠ B.id)
    (hm2A : ∀ t ∈ m₂, t.id ≠ A.id) (hm2B : ∀ t ∈ m₂, t.id ≠ B.id) :
    ((runTasks tasks behavior acc (m₁ ++ B :: m₂)).2.2.rows A.id).status =
      TaskStatus.failed ∧
    ((runTasks tasks behavior acc (m₁ ++ B :: m₂)).2.2.rows B.id).status =
      TaskStatus.pending := by
  rw [runTasks_append, runTasks_cons]
  have hA1 : ((runTasks tasks behavior acc m₁).2.2.rows A.id).status =
      TaskStatus.failed := by
    rw [runTasks_rows_ne tasks behavior m₁ acc A.id hm1A]; exact hrowA
  have hB1 : ((runTasks tasks behavior acc m₁).2.2.rows B.id).status =
      TaskStatus.pending := by
    rw [runTasks_rows_ne tasks behavior m₁ acc B.id hm1B]; exact hrowB
  have hskipB : runStep tasks behavior (runTasks tasks behavior acc m₁) B =
      runTasks tasks behavior acc m₁ := by
    apply runStep_skip
    have hmem : A.id ∈ B.dependencies.filter
        (fun d => !(depCompleted tasks (runTasks tasks behavior acc m₁).2.2 d)) := by
      apply List.mem_filter.2
      refine ⟨hdep, ?_⟩
      simp [depCompleted, hA1]
    cases hie : (B.dependencies.filter
        (fun d => !(depCompleted tasks (runTasks tasks behavior acc m₁).2.2 d))).isEmpty
    · rfl
    · exfalso
      rw [List.isEmpty_iff.1 hie] at hmem
      exact List.not_mem_nil _ hmem
  rw [hskipB]
  constructor
  · rw [runTasks_rows_ne tasks behavior m₂ _ A.id hm2A]; exact hA1
  · rw [runTasks_rows_ne tasks behavior m₂ _ B.id hm2B]; exact hB1

/-- C3: in a plan (with distinct task ids, all rows initially `pending`,
empty usage log) containing tasks A and B with A in B's dependency set,
if A's tool invocation is performed during plan execution and fails
(structured failure result or raised error), then afterwards B is still
`pending` (skipped, never started and never marked failed), A is
`failed`, the plan's status is `failed` and the executor reports
failure. -/
theorem C3_failed_dep_skips (tasks : List Task) (A B : Task)
    (behavior : String → TaskBehavior) (st : ExecSt)
    (hnd : (taskIds tasks).Nodup)
    (hA : A ∈ tasks) (hB : B ∈ tasks)
    (hdep : A.id ∈ B.dependencies)
    (hfail : failingInvoke (behavior A.id))
    (hpend : ∀ i, (st.rows i).status = TaskStatus.pending)
    (husage : st.usage = [])
    (hinvoked : ∃ rec ∈ (executePlan tasks behavior st).2.usage, rec.taskId = A.id) :
    ((executePlan tasks behavior st).2.rows B.id).status = TaskStatus.pending ∧
    ((executePlan tasks behavior st).2.rows A.id).status = TaskStatus.failed ∧
    (executePlan tasks behavior st).2.planStatus = PlanStatus.failed ∧
    (executePlan tasks behavior st).1.success = false := by
  rcases sorter_cases tasks with ⟨l, hok, hsub, hlnd, hall, hord⟩ | ⟨u, hu, hcu, herr⟩
  case inr =>
    exfalso
    have hus : (executePlan tasks behavior st).2.usage = st.usage := by
      simp [executePlan, herr]
    obtain ⟨rec, hrec, _⟩ := hinvoked
    rw [hus, husage] at hrec
    exact List.not_mem_nil rec hrec
  case inl =>
  have hEP := executePlan_ok_unfold tasks behavior st l hok
  have hinvoked' : ∃ rec ∈ (runTasks tasks behavior
      ([], [], { st with planStatus := PlanStatus.active }) l).2.2.usage,
      rec.taskId = A.id := by
    rw [hEP] at hinvoked
    exact hinvoked
  have hmeml : ∀ t ∈ tasks, t ∈ l := by
    intro t ht
    obtain ⟨u, hu, huid⟩ := List.mem_map.1 (hall t ht)
    rwa [← id_inj tasks hnd u (hsub u hu) t ht huid]
  obtain ⟨l₁, l₂, hsplitl⟩ := List.append_of_mem (hmeml A hA)
  have hids := split_id_ne l₁ l₂ A (by rw [← hsplitl]; exact hlnd)
  have hrunA : runTasks tasks behavior
      ([], [], { st with planStatus := PlanStatus.active }) l =
      runTasks tasks behavior (runStep tasks behavior (runTasks tasks behavior
        ([], [], { st with planStatus := PlanStatus.active }) l₁) A) l₂ := by
    rw [hsplitl, runTasks_append, runTasks_cons]
  have hrowsA1 : ((runTasks tasks behavior
      ([], [], { st with planStatus := PlanStatus.active }) l₁).2.2.rows A.id).status =
      TaskStatus.pending := by
    rw [runTasks_rows_ne tasks behavior l₁
      ([], [], { st with planStatus := PlanStatus.active }) A.id hids.1]
    exact hpend A.id
  obtain ⟨n1, hn1, hn1ids⟩ := runTasks_usage_ids tasks behavior l₁
    ([], [], { st with planStatus := PlanStatus.active })
  have hn1' : (runTasks tasks behavior
      ([], [], { st with planStatus := PlanStatus.active }) l₁).2.2.usage = n1 := by
    rw [hn1]
    show st.usage ++ n1 = n1
    rw [husage, List.nil_append]
  by_cases hAdeps : (A.dependencies.filter (fun d => !(depCompleted tasks
      (runTasks tasks behavior
        ([], [], { st with planStatus := PlanStatus.active }) l₁).2.2 d))).isEmpty = true
  case neg =>
    exfalso
    rw [Bool.not_eq_true] at hAdeps
    have hskip := runStep_skip tasks behavior (runTasks tasks behavior
      ([], [], { st with planStatus := PlanStatus.active }) l₁) A hAdeps
    obtain ⟨n2, hn2, hn2ids⟩ := runTasks_usage_ids tasks behavior l₂
      (runTasks tasks behavior ([], [], { st with planStatus := PlanStatus.active }) l₁)
    obtain ⟨rec, hrec, hrecid⟩ := hinvoked'
    rw [hrunA, hskip, hn2, hn1'] at hrec
    rcases List.mem_append.1 hrec with h | h
    · obtain ⟨t, ht, htid⟩ := hn1ids rec h
      exact hids.1 t ht (htid ▸ hrecid ▸ rfl)
    · obtain ⟨t, ht, htid⟩ := hn2ids rec h
      exact hids.2 t ht (htid ▸ hrecid ▸ rfl)
  case pos =>
  obtain ⟨hstepA, hArowF⟩ := runStep_exec_failing tasks behavior (runTasks tasks behavior
    ([], [], { st with planStatus := PlanStatus.active }) l₁) A hAdeps hfail
  have hBneA : B.id ≠ A.id := by
    intro heq
    have hBA : B = A := id_inj tasks hnd B hB A hA heq
    have hAdep : A.id ∈ A.dependencies := hBA ▸ hdep
    have hdc : depCompleted tasks (runTasks tasks behavior
        ([], [], { st with planStatus := PlanStatus.active }) l₁).2.2 A.id = false := by
      simp [depCompleted, hrowsA1]
    have hmem : A.id ∈ A.dependencies.filter (fun d => !(depCompleted tasks
        (runTasks tasks behavior
          ([], [], { st with planStatus := PlanStatus.active }) l₁).2.2 d)) :=
      List.mem_filter.2 ⟨hAdep, by simp [hdc]⟩
    rw [List.isEmpty_iff.1 hAdeps] at hmem
    exact List.not_mem_nil _ hmem
  have hBl2 : B ∈ l₂ := by
    have hBl : B ∈ l := hmeml B hB
    rw [hsplitl] at hBl
    rcases List.mem_append.1 hBl with h1 | h2
    · exfalso
      obtain ⟨m₁, m₂, hBsplit⟩ := List.append_of_mem h1
      have hleq : l = m₁ ++ B :: (m₂ ++ A :: l₂) := by
        rw [hsplitl, hBsplit]; simp
      have hAin : A.id ∈ m₁.map (·.id) :=
        hord m₁ B (m₂ ++ A :: l₂) hleq A.id hdep (mem_taskIds hA)
      have hlnd' : ((m₁ ++ B :: (m₂ ++ A :: l₂)).map (·.id)).Nodup := by
        rw [← hleq]; exact hlnd
      rw [List.map_append] at hlnd'
      exact List.disjoint_of_nodup_append hlnd' hAin (by simp)
    · rcases List.mem_cons.1 h2 with h | h
      · exact absurd (congrArg Task.id h) hBneA
      · exact h
  obtain ⟨m₁, m₂, hBsplit⟩ := List.append_of_mem hBl2
  have hsplitB : l = (l₁ ++ A :: m₁) ++ B :: m₂ := by
    rw [hsplitl, hBsplit]; simp
  have hidsB := split_id_ne (l₁ ++ A :: m₁) m₂ B (by rw [← hsplitB]; exact hlnd)
  have hm1A : ∀ t ∈ m₁, t.id ≠ A.id := by
    intro t ht
    apply hids.2 t
    rw [hBsplit]
    exact List.mem_append.2 (Or.inl ht)
  have hm2A : ∀ t ∈ m₂, t.id ≠ A.id := by
    intro t ht
    apply hids.2 t
    rw [hBsplit]
    exact List.mem_append.2 (Or.inr (List.mem_cons_of_mem B ht))
  have hl1B : ∀ t ∈ l₁, t.id ≠ B.id :=
    fun t ht => hidsB.1 t (List.mem_append.2 (Or.inl ht))
  have hm1B : ∀ t ∈ m₁, t.id ≠ B.id :=
    fun t ht => hidsB.1 t (List.mem_append.2 (Or.inr (List.mem_cons_of_mem A ht)))
  have hm2B : ∀ t ∈ m₂, t.id ≠ B.id := hidsB.2
  have hrowBafterA : ((executeTask behavior A (runTasks tasks behavior
      ([], [], { st with planStatus := PlanStatus.active }) l₁).2.2).2.rows B.id).status =
      TaskStatus.pending := by
    rw [executeTask_rows_ne behavior A _ B.id hBneA]
    rw [runTasks_rows_ne tasks behavior l₁
      ([], [], { st with planStatus := PlanStatus.active }) B.id hl1B]
    exact hpend B.id
  have htail := run_tail_skips_B tasks behavior A B m₁ m₂
    (runStep tasks behavior (runTasks tasks behavior
      ([], [], { st with planStatus := PlanStatus.active }) l₁) A)
    (by rw [hstepA]; exact hArowF)
    (by rw [hstepA]; exact hrowBafterA)
    hdep hm1A hm1B hm2A hm2B
  obtain ⟨more, hmore⟩ := runTasks_failed_mono tasks behavior l₂
    (runStep tasks behavior (runTasks tasks behavior
      ([], [], { st with planStatus := PlanStatus.active }) l₁) A)
  have hfailedne : (runTasks tasks behavior
      ([], [], { st with planStatus := PlanStatus.active }) l).2.1 ≠ [] := by
    rw [hrunA, hmore, hstepA]
    simp
  have hempty : (runTasks tasks behavior
      ([], [], { st with planStatus := PlanStatus.active }) l).2.1.isEmpty = false := by
    cases hie : (runTasks tasks behavior
        ([], [], { st with planStatus := PlanStatus.active }) l).2.1.isEmpty
    · rfl
    · exact absurd (List.isEmpty_iff.1 hie) hfailedne
  have hfinalB : ((runTasks tasks behavior
      ([], [], { st with planStatus := PlanStatus.active }) l).2.2.rows B.id).status =
      TaskStatus.pending := by
    rw [hrunA, hBsplit]
    exact htail.2
  have hfinalA : ((runTasks tasks behavior
      ([], [], { st with planStatus := PlanStatus.active }) l).2.2.rows A.id).status =
      TaskStatus.failed := by
    rw [hrunA, hBsplit]
    exact htail.1
  rw [hEP]
  refine ⟨hfinalB, hfinalA, ?_, ?_⟩
  · show (if (runTasks tasks behavior
        ([], [], { st with planStatus := PlanStatus.active }) l).2.1.isEmpty
      then PlanStatus.completed else PlanStatus.failed) = PlanStatus.failed
    rw [hempty]
    rfl
  · show (runTasks tasks behavior
        ([], [], { st with planStatus := PlanStatus.active }) l).2.1.isEmpty = false
    exact hempty

/-- Witness for C3 at a concrete two-task plan where B depends on A and
A's tool returns a structured failure. -/
theorem C3_failed_dep_skips_witness :
    ((executePlan [⟨"a", "A", 0, []⟩, ⟨"b", "B", 1, ["a"]⟩]
        (fun i => if i == "a"
          then TaskBehavior.invoke "tool"
            (ToolInvocationOutcome.returns ⟨false, none, some "boom"⟩ 3)
          else TaskBehavior.invoke "tool"
            (ToolInvocationOutcome.returns ⟨true, none, none⟩ 1))
        ⟨fun _ => ⟨.pending, none, none, none⟩, .draft, [], 0⟩).2.rows "b").status =
      TaskStatus.pending ∧
    ((executePlan [⟨"a", "A", 0, []⟩, ⟨"b", "B", 1, ["a"]⟩]
        (fun i => if i == "a"
          then TaskBehavior.invoke "tool"
            (ToolInvocationOutcome.returns ⟨false, none, some "boom"⟩ 3)
          else TaskBehavior.invoke "tool"
            (ToolInvocationOutcome.returns ⟨true, none, none⟩ 1))
        ⟨fun _ => ⟨.pending, none, none, none⟩, .draft, [], 0⟩).2.rows "a").status =
      TaskStatus.failed ∧
    (executePlan [⟨"a", "A", 0, []⟩, ⟨"b", "B", 1, ["a"]⟩]
        (fun i => if i == "a"
          then TaskBehavior.invoke "tool"
            (ToolInvocationOutcome.returns ⟨false, none, some "boom"⟩ 3)
          else TaskBehavior.invoke "tool"
            (ToolInvocationOutcome.returns ⟨true, none, none⟩ 1))
        ⟨fun _ => ⟨.pending, none, none, none⟩, .draft, [], 0⟩).2.planStatus =
      PlanStatus.failed ∧
    (executePlan [⟨"a", "A", 0, []⟩, ⟨"b", "B", 1, ["a"]⟩]
        (fun i => if i == "a"
          then TaskBehavior.invoke "tool"
            (ToolInvocationOutcome.returns ⟨false, none, some "boom"⟩ 3)
          else TaskBehavior.invoke "tool"
            (ToolInvocationOutcome.returns ⟨true, none, none⟩ 1))
        ⟨fun _ => ⟨.pending, none, none, none⟩, .draft, [], 0⟩).1.success = false :=
  C3_failed_dep_skips [⟨"a", "A", 0, []⟩, ⟨"b", "B", 1, ["a"]⟩]
    ⟨"a", "A", 0, []⟩ ⟨"b", "B", 1, ["a"]⟩
    (fun i => if i == "a"
      then TaskBehavior.invoke "tool"
        (ToolInvocationOutcome.returns ⟨false, none, some "boom"⟩ 3)
      else TaskBehavior.invoke "tool"
        (ToolInvocationOutcome.returns ⟨true, none, none⟩ 1))
    ⟨fun _ => ⟨.pending, none, none, none⟩, .draft, [], 0⟩
    (by decide) (by decide) (by decide) (by decide) rfl (fun _ => rfl) rfl (by decide)

end Agent
